import Mathlib

/-!
# Wallet key metadata: versioned serialization and the key-origin accessors

A shallow embedding of `CKeyMetadata` and `CHDChain` from
`src/wallet/walletdb.h`: the in-memory records, `SetNull`, `SetKeyOrigin`,
`GetKeyOrigin` and the two-directional `SerializationOp`. The payment-URI
functions of `src/qt/guiutil.cpp` follow in the namespace `GUIUtil`.

The stream primitives behind `READWRITE` (fixed-width integers, strings,
key identifiers, maps) live in `serialize.h`, which is not among the
sources; they are taken as a parameter (`StreamOps`), and each statement
names what it needs of them. The concrete stream `btc` (little-endian
integers, length-prefixed strings) lets every statement be evaluated on
real bytes, and is shown to meet those needs on every value in range.
-/

namespace WalletDB

/-! ## Bytes, strings and the property map -/

/-- One octet (`uint8_t`, or a `char` of a `std::string`). -/
abbrev Byte := Fin 256

/-- A `std::string`, seen as its sequence of octets; also a serialized stream. -/
abbrev Bytes := List Byte

/-- The type `std::map<std::string, std::string>`: the entries in iteration order. -/
abbrev MapMeta := List (Bytes × Bytes)

/-- The identifier `CKeyID` (a `uint160`): 160 opaque bits. -/
abbrev CKeyID := Fin (2 ^ 160)

/-- The null identifier produced by `CKeyID::SetNull()`: all bits zero. -/
def CKeyID.null : CKeyID := 0

/-- The order `std::less<std::string>` of the map's keys: octet by octet, a
proper initial segment first. -/
def strLess : Bytes → Bytes → Bool
  | _, [] => false
  | [], _ :: _ => true
  | a :: as, b :: bs => if a < b then true else if b < a then false else strLess as bs

/-- The member `std::map::find`, returning the mapped value when the key is present. -/
def MapMeta.find : MapMeta → Bytes → Option Bytes
  | [], _ => none
  | (k', v') :: rest, k => if k = k' then some v' else MapMeta.find rest k

/-- The statement `m[k] = v`: overwrite the entry of `k`, or insert it at its
place in key order when absent. -/
def MapMeta.assign : MapMeta → Bytes → Bytes → MapMeta
  | [], k, v => [(k, v)]
  | (k', v') :: rest, k, v =>
    if k = k' then (k, v) :: rest
    else if strLess k k' then (k, v) :: (k', v') :: rest
    else (k', v') :: MapMeta.assign rest k v

/-- In-place update of `it->second` through an iterator obtained from `find(k)`. -/
def MapMeta.update : MapMeta → Bytes → (Bytes → Bytes) → MapMeta
  | [], _, _ => []
  | (k', v') :: rest, k, f =>
    if k = k' then (k', f v') :: rest else (k', v') :: MapMeta.update rest k f

/-- The member `std::string::resize(n)`: truncate, or pad with zero octets. -/
def resize (s : Bytes) (n : Nat) : Bytes :=
  s.take n ++ List.replicate (n - s.length) 0

/-- The string literal "origin". -/
def originKey : Bytes := [0x6f, 0x72, 0x69, 0x67, 0x69, 0x6e]

/-! ## The record -/

/-- The class `CKeyMetadata`. -/
structure CKeyMetadata where
  nVersion : Int
  nCreateTime : Int
  hdKeypath : Bytes
  hdMasterKeyID : CKeyID
  mapMeta : MapMeta
  deriving DecidableEq, Repr

def VERSION_BASIC : Int := 1
def VERSION_WITH_FLAGS : Int := 2
def VERSION_WITH_HDDATA : Int := 10
def VERSION_WITH_META : Int := 11
def CURRENT_VERSION : Int := VERSION_WITH_META

def KEY_ORIGIN_UNSET : Byte := 0x00
def KEY_ORIGIN_UNKNOWN : Byte := 0x01
def KEY_ORIGIN_IMPORTED : Byte := 0x02
def KEY_ORIGIN_UNENC_WALLET : Byte := 0x04
def KEY_ORIGIN_ENC_WALLET : Byte := 0x08

/-- The method `CKeyMetadata::SetNull`. -/
def SetNull (self : CKeyMetadata) : CKeyMetadata :=
  { self with
    nVersion := CURRENT_VERSION
    nCreateTime := 0
    hdKeypath := []
    hdMasterKeyID := CKeyID.null
    mapMeta := [] }

/-- The default constructor `CKeyMetadata()`: `SetNull()` on a fresh object. -/
def CKeyMetadata.new : CKeyMetadata :=
  SetNull ⟨0, 0, [], 0, []⟩

/-- The constructor `CKeyMetadata(int64_t nCreateTime_)`. -/
def CKeyMetadata.newAt (nCreateTime_ : Int) : CKeyMetadata :=
  { CKeyMetadata.new with nCreateTime := nCreateTime_ }

/-- The method `CKeyMetadata::SetKeyOrigin`. -/
def SetKeyOrigin (self : CKeyMetadata) (n : Byte) : CKeyMetadata :=
  match self.mapMeta.find originKey with
  | none => { self with mapMeta := self.mapMeta.assign originKey [n] }
  | some _ =>
    { self with
      mapMeta := self.mapMeta.update originKey
        (fun second => (if second.length < 1 then resize second 1 else second).set 0 n) }

/-- The method `CKeyMetadata::GetKeyOrigin`. -/
def GetKeyOrigin (self : CKeyMetadata) : Byte :=
  match self.mapMeta.find originKey with
  | none => KEY_ORIGIN_UNSET
  | some second => if second.length < 1 then KEY_ORIGIN_UNSET else second.getD 0 0

/-! ## The serialization stream -/

/-- One stream primitive: how a value of type `α` is written and read back.
Reading returns the value and the rest of the stream, or fails. -/
structure Prim (α : Type) where
  ser : α → Bytes
  unser : Bytes → Option (α × Bytes)

/-- The primitives `SerializationOp` relies on, one per field type. -/
structure StreamOps where
  int : Prim Int
  int64 : Prim Int
  uint8 : Prim Byte
  string : Prim Bytes
  keyID : Prim CKeyID
  map : Prim MapMeta

/-- The two serialization actions (`CSerActionSerialize`, `CSerActionUnserialize`). -/
inductive SerAction where
  | Serialize
  | Unserialize
  deriving DecidableEq, Repr

/-- The method `ForRead()` of a serialization action. -/
def SerAction.ForRead : SerAction → Bool
  | .Serialize => false
  | .Unserialize => true

/-- The statement `READWRITE(x)`: when reading, replace `x` by the value read
from the front of the stream; when writing, append the encoding of `x`. -/
def READWRITE {α : Type} (p : Prim α) (ser_action : SerAction) (x : α) (s : Bytes) :
    Option (α × Bytes) :=
  if ser_action.ForRead then p.unser s else some (x, s ++ p.ser x)

/-- The method `CKeyMetadata::SerializationOp`, for both actions. The stream `s`
is the unread input when reading and the output written so far when writing; a
failed read (an exception in the source) is `none`. The local `nVersion` is the
parameter the source overwrites with `this->nVersion`; `keyFlags` is
uninitialised in the source when reading and is overwritten by the read. -/
def SerializationOp (S : StreamOps) (ser_action : SerAction) (self : CKeyMetadata)
    (s : Bytes) : Option (CKeyMetadata × Bytes) := do
  let self := if ser_action.ForRead then SetNull self else self
  let (v, s) ← READWRITE S.int ser_action self.nVersion s
  let self := { self with nVersion := v }
  let nVersion := self.nVersion
  let (t, s) ← READWRITE S.int64 ser_action self.nCreateTime s
  let self := { self with nCreateTime := t }
  if self.nVersion ≥ VERSION_WITH_HDDATA then
    let (kp, s) ← READWRITE S.string ser_action self.hdKeypath s
    let self := { self with hdKeypath := kp }
    let (id, s) ← READWRITE S.keyID ser_action self.hdMasterKeyID s
    let self := { self with hdMasterKeyID := id }
    if nVersion ≥ VERSION_WITH_META then
      let (mm, s) ← READWRITE S.map ser_action self.mapMeta s
      let self := { self with mapMeta := mm }
      pure (self, s)
    else
      pure (self, s)
  else if nVersion ≥ VERSION_WITH_FLAGS then
    let keyFlags : Byte := if !ser_action.ForRead then GetKeyOrigin self else 0
    let (keyFlags, s) ← READWRITE S.uint8 ser_action keyFlags s
    let self := if ser_action.ForRead then SetKeyOrigin self keyFlags else self
    pure (self, s)
  else
    pure (self, s)

/-- Encoding: `SerializationOp` with the write action on an empty stream. -/
def Encode (S : StreamOps) (m : CKeyMetadata) : Bytes :=
  match SerializationOp S .Serialize m [] with
  | some (_, out) => out
  | none => []

/-- Decoding into the object `self`: `SerializationOp` with the read action. -/
def DecodeInto (S : StreamOps) (self : CKeyMetadata) (s : Bytes) :
    Option (CKeyMetadata × Bytes) :=
  SerializationOp S .Unserialize self s

/-- Decoding into a freshly constructed object. -/
def Decode (S : StreamOps) (s : Bytes) : Option (CKeyMetadata × Bytes) :=
  DecodeInto S CKeyMetadata.new s

/-! ## A concrete stream

The instance below fixes one byte layout for the primitives, so that the
codec can be run on real payloads. -/

/-- Modelled from the spec: the fixed-width integer writer of `serialize.h` is
absent from the sources; section 6 of the specification only fixes that fields
follow the version "in a fixed binary order". Here: `w` octets, least
significant first. -/
def writeLE : Nat → Nat → Bytes
  | 0, _ => []
  | w + 1, n => Fin.ofNat (n % 256) :: writeLE w (n / 256)

/-- Modelled from the spec: the fixed-width integer reader of `serialize.h`
(absent from the sources): `w` octets, least significant first; fails when the
stream ends early. -/
def readLE : Nat → Bytes → Option (Nat × Bytes)
  | 0, s => some (0, s)
  | _ + 1, [] => none
  | w + 1, b :: s =>
    match readLE w s with
    | none => none
    | some (n, rest) => some (b.val + 256 * n, rest)

/-- Two's-complement reading of a `bits`-wide unsigned value. -/
def toSigned (bits : Nat) (u : Nat) : Int :=
  if u < 2 ^ (bits - 1) then (u : Int) else (u : Int) - 2 ^ bits

/-- Modelled from the spec: a signed integer field of `w` octets (`int` is 4,
`int64_t` is 8), the primitive of `serialize.h` absent from the sources. -/
def intPrim (w : Nat) : Prim Int where
  ser v := writeLE w (v % 2 ^ (8 * w)).toNat
  unser s :=
    match readLE w s with
    | none => none
    | some (u, rest) => some (toSigned (8 * w) u, rest)

/-- Modelled from the spec: a `uint8_t` field, one octet. -/
def uint8Prim : Prim Byte where
  ser b := [b]
  unser
    | [] => none
    | b :: rest => some (b, rest)

/-- Modelled from the spec: the largest element count a reader accepts
(`MAX_SIZE` of `serialize.h`, absent from the sources). -/
def MAX_SIZE : Nat := 0x02000000

/-- Modelled from the spec: the variable-length count written before strings and
maps (`WriteCompactSize` of `serialize.h`, absent from the sources). -/
def WriteCompactSize (n : Nat) : Bytes :=
  if n < 253 then writeLE 1 n
  else if n ≤ 0xFFFF then 253 :: writeLE 2 n
  else if n ≤ 0xFFFFFFFF then 254 :: writeLE 4 n
  else 255 :: writeLE 8 n

/-- Modelled from the spec: the reader of that count (`ReadCompactSize`), which
rejects non-canonical encodings and counts above `MAX_SIZE`. -/
def ReadCompactSize : Bytes → Option (Nat × Bytes)
  | [] => none
  | chSize :: s =>
    let sized : Option (Nat × Bytes) :=
      if chSize.val < 253 then some (chSize.val, s)
      else if chSize.val = 253 then
        match readLE 2 s with
        | none => none
        | some (n, rest) => if n < 253 then none else some (n, rest)
      else if chSize.val = 254 then
        match readLE 4 s with
        | none => none
        | some (n, rest) => if n < 0x10000 then none else some (n, rest)
      else
        match readLE 8 s with
        | none => none
        | some (n, rest) => if n < 0x100000000 then none else some (n, rest)
    match sized with
    | none => none
    | some (n, rest) => if n > MAX_SIZE then none else some (n, rest)

/-- Read exactly `n` octets from the front of the stream. -/
def readN : Nat → Bytes → Option (Bytes × Bytes)
  | 0, s => some ([], s)
  | _ + 1, [] => none
  | n + 1, b :: s =>
    match readN n s with
    | none => none
    | some (bs, rest) => some (b :: bs, rest)

/-- Modelled from the spec: a `std::string` field, its length followed by its
octets (the string primitive of `serialize.h`, absent from the sources). -/
def stringPrim : Prim Bytes where
  ser str := WriteCompactSize str.length ++ str
  unser s :=
    match ReadCompactSize s with
    | none => none
    | some (nSize, rest) => readN nSize rest

/-- Modelled from the spec: a `CKeyID` field, 20 raw octets. -/
def keyIDPrim : Prim CKeyID where
  ser id := writeLE 20 id.val
  unser s :=
    match readLE 20 s with
    | none => none
    | some (n, rest) => some (Fin.ofNat n, rest)

/-- The member `std::map::insert`: add the entry at its place in key order,
leaving the map unchanged when the key is already present. -/
def MapMeta.insert : MapMeta → Bytes → Bytes → MapMeta
  | [], k, v => [(k, v)]
  | (k', v') :: rest, k, v =>
    if k = k' then (k', v') :: rest
    else if strLess k k' then (k, v) :: (k', v') :: rest
    else (k', v') :: MapMeta.insert rest k v

/-- The entries of a map, each as key then value. -/
def writeEntries : MapMeta → Bytes
  | [] => []
  | (k, v) :: rest => stringPrim.ser k ++ stringPrim.ser v ++ writeEntries rest

/-- Read `n` entries, inserting each into the map built so far. -/
def readEntries : Nat → MapMeta → Bytes → Option (MapMeta × Bytes)
  | 0, m, s => some (m, s)
  | n + 1, m, s =>
    match stringPrim.unser s with
    | none => none
    | some (k, s1) =>
      match stringPrim.unser s1 with
      | none => none
      | some (v, s2) => readEntries n (m.insert k v) s2

/-- Modelled from the spec: a `std::map<std::string, std::string>` field, the
entry count followed by the entries in key order (the map primitive of
`serialize.h`, absent from the sources). -/
def mapPrim : Prim MapMeta where
  ser m := WriteCompactSize m.length ++ writeEntries m
  unser s :=
    match ReadCompactSize s with
    | none => none
    | some (nSize, rest) => readEntries nSize [] rest

/-- The concrete stream: 4-octet `int`, 8-octet `int64_t`, one-octet `uint8_t`,
length-prefixed strings, 20-octet key identifiers, counted maps. -/
def btc : StreamOps where
  int := intPrim 4
  int64 := intPrim 8
  uint8 := uint8Prim
  string := stringPrim
  keyID := keyIDPrim
  map := mapPrim

/-- The count written before strings and maps, as a primitive. -/
def compactSizePrim : Prim Nat where
  ser := WriteCompactSize
  unser := ReadCompactSize

/-- The invariant of a `std::map`: keys strictly increasing in iteration order. -/
def MapMeta.Ordered (m : MapMeta) : Prop :=
  m.Pairwise (fun a b => strLess a.1 b.1 = true)

instance MapMeta.decidableOrdered (m : MapMeta) : Decidable m.Ordered := by
  unfold MapMeta.Ordered
  infer_instance

/-- The on-disk layout of a key-metadata record of format version `v`, in the
words of the specification (section 4.1): the version, the creation time, then
the HD path and HD master key id from the "with HD data" version on, followed by
the property map from the "with generic metadata" version on; in the lower
"with flags" range a single packed byte instead; nothing more below it. -/
def wirePayload (S : StreamOps) (v t : Int) (kp : Bytes) (id : CKeyID) (mm : MapMeta)
    (b : Byte) : Bytes :=
  S.int.ser v ++ (S.int64.ser t ++
    (if VERSION_WITH_HDDATA ≤ v then
      S.string.ser kp ++ (S.keyID.ser id ++ (if VERSION_WITH_META ≤ v then S.map.ser mm else []))
    else if VERSION_WITH_FLAGS ≤ v then S.uint8.ser b
    else []))

/-! ## What a stream must do for one value -/

/-- Writing `a` and reading it back returns `a` and leaves the rest of the
stream untouched. -/
def Prim.RoundTrips {α : Type} (p : Prim α) (a : α) : Prop :=
  ∀ rest : Bytes, p.unser (p.ser a ++ rest) = some (a, rest)

/-- Reading fails on every truncation of the encoding of `a`. -/
def Prim.FailsOnTruncation {α : Type} (p : Prim α) (a : α) : Prop :=
  ∀ q : Bytes, q <+: p.ser a → q ≠ p.ser a → p.unser q = none

/-- The stream carries `a`: it reads it back, and fails on every truncation. -/
def Prim.Carries {α : Type} (p : Prim α) (a : α) : Prop :=
  p.RoundTrips a ∧ p.FailsOnTruncation a

/-! ## The HD chain record -/

/-- The class `CHDChain`. -/
structure CHDChain where
  nExternalChainCounter : Nat
  masterKeyID : CKeyID
  nVersion : Int
  deriving DecidableEq, Repr

/-- The constant `CHDChain::CURRENT_VERSION`. -/
def CHDChain.CURRENT_VERSION : Int := 1

/-- The method `CHDChain::SetNull`. -/
def CHDChain.SetNull (self : CHDChain) : CHDChain :=
  { self with
    nVersion := CHDChain.CURRENT_VERSION
    nExternalChainCounter := 0
    masterKeyID := CKeyID.null }

/-- The constructor `CHDChain()`: `SetNull()` on a fresh object. -/
def CHDChain.new : CHDChain :=
  CHDChain.SetNull ⟨0, 0, 0⟩

/-- The method `CHDChain::SerializationOp`, for both actions; `uint32` is the
stream primitive of the `uint32_t` counter. The source reads without resetting
the object first: every field is read. -/
def CHDChain.SerializationOp (S : StreamOps) (uint32 : Prim Nat) (ser_action : SerAction)
    (self : CHDChain) (s : Bytes) : Option (CHDChain × Bytes) := do
  let (v, s) ← READWRITE S.int ser_action self.nVersion s
  let self := { self with nVersion := v }
  let (n, s) ← READWRITE uint32 ser_action self.nExternalChainCounter s
  let self := { self with nExternalChainCounter := n }
  let (id, s) ← READWRITE S.keyID ser_action self.masterKeyID s
  let self := { self with masterKeyID := id }
  pure (self, s)

/-- Encoding of a chain: `SerializationOp` with the write action on an empty
stream. -/
def CHDChain.Encode (S : StreamOps) (uint32 : Prim Nat) (c : CHDChain) : Bytes :=
  match CHDChain.SerializationOp S uint32 .Serialize c [] with
  | some (_, out) => out
  | none => []

/-- Decoding of a chain into the object `self`. -/
def CHDChain.DecodeInto (S : StreamOps) (uint32 : Prim Nat) (self : CHDChain) (s : Bytes) :
    Option (CHDChain × Bytes) :=
  CHDChain.SerializationOp S uint32 .Unserialize self s

/-- Modelled from the spec: a `uint32_t` field of the concrete stream, 4 octets,
least significant first (the primitive of `serialize.h`, absent from the
sources). -/
def uint32Prim : Prim Nat where
  ser n := writeLE 4 (n % 2 ^ 32)
  unser s := readLE 4 s

end WalletDB

/-! # Payment URIs: `URIParseAmount` and `parseBitcoinURL`

A shallow embedding of `parseNumber`, `URIParseAmount` and
`parseBitcoinURL(const QUrl&, SendCoinsRecipient*)` from `src/qt/guiutil.cpp`.
Sizes and positions are `size_t` (64 bits), the exponent is an `int` (32 bits),
amounts are `int64`; conversions between them wrap as on the machine. -/

namespace GUIUtil

/-- A `std::string` of URI text, seen as its sequence of characters. -/
abbrev StdString := List Char

/-- A `QString`, seen as its sequence of characters. -/
abbrev QString := List Char

/-- Conversion of a signed value to `size_t` (64 bits): reduction modulo 2^64. -/
def toSizeT (v : Int) : Nat := (v % 2 ^ 64).toNat

/-- Conversion of a wider value to `int` (32 bits, two's complement). -/
def toInt32 (v : Int) : Int :=
  if v % 2 ^ 32 < 2 ^ 31 then v % 2 ^ 32 else v % 2 ^ 32 - 2 ^ 32

/-- The member `std::string::find(c, pos)`: the first index at or after `pos`
holding `c`; `none` stands for `npos`. -/
def find (s : StdString) (c : Char) (pos : Nat) : Option Nat :=
  if c ∈ s.drop pos then some (pos + (s.drop pos).indexOf c) else none

/-- The member `std::string::substr(pos, n)`, for `pos ≤ size()` (the source
never calls it otherwise): at most `n` characters from index `pos` on. -/
def substr (s : StdString) (pos n : Nat) : StdString :=
  (s.drop pos).take n

/-- The member `std::string::substr(pos)`, for `pos ≤ size()`: the rest of the
string from index `pos` on. -/
def substrFrom (s : StdString) (pos : Nat) : StdString :=
  s.drop pos

/-- The value of a digit in base 10, or in base 16 when `fHex` is set. -/
def digitValue (fHex : Bool) (c : Char) : Option Nat :=
  if 48 ≤ c.toNat ∧ c.toNat ≤ 57 then some (c.toNat - 48)
  else if fHex = true ∧ 97 ≤ c.toNat ∧ c.toNat ≤ 102 then some (c.toNat - 87)
  else if fHex = true ∧ 65 ≤ c.toNat ∧ c.toNat ≤ 70 then some (c.toNat - 55)
  else none

/-- The base selected by `std::hex` or `std::dec`. -/
def baseOf (fHex : Bool) : Nat := if fHex then 16 else 10

/-- Accumulate the longest run of digits at the front of the input. -/
def accumulate (fHex : Bool) : Nat → StdString → Nat
  | acc, [] => acc
  | acc, c :: cs =>
    match digitValue fHex c with
    | none => acc
    | some d => accumulate fHex (acc * baseOf fHex + d) cs

/-- The predicate `std::isspace` in the "C" locale. -/
def isspace (c : Char) : Bool :=
  c.toNat = 32 || (9 ≤ c.toNat && c.toNat ≤ 13)

/-- A value outside `int64` is stored as the nearest bound. -/
def clampInt64 (v : Int) : Int :=
  if v > 2 ^ 63 - 1 then 2 ^ 63 - 1 else if v < -(2 ^ 63) then -(2 ^ 63) else v

/-- The function `parseNumber`: `nAmount = 0`, then the formatted extraction
`stream >> (fHex ? std::hex : std::dec) >> nAmount` of the standard library on a
stream over the string. The extraction skips leading white space, takes an
optional sign, in base 16 an optional `0x`, then the longest run of digits; what
follows is left unread. With no digit the extraction fails and `nAmount` is 0,
the value of an empty run; a value outside `int64` is stored as the nearest
bound. -/
def parseNumber (strNumber : StdString) (fHex : Bool) : Int :=
  let s := strNumber.dropWhile isspace
  let neg := decide (s.head? = some '-')
  let s := if s.head? = some '-' ∨ s.head? = some '+' then s.tail else s
  let s := if fHex = true ∧ s.head? = some '0' ∧
      (s.tail.head? = some 'x' ∨ s.tail.head? = some 'X') then s.drop 2 else s
  let nAmount : Int := accumulate fHex 0 s
  clampInt64 (if neg then -nAmount else nAmount)

/-- The function `URIParseAmount`. Sizes and positions are `size_t`, the
exponent is an `int`; conversions between them wrap. `strAmount[0]` of an empty
string is the terminating NUL; `found` is `nPosX` after the two searches, `none`
for `npos`. -/
def URIParseAmount (strAmount : StdString) : Int :=
  let fHex := decide (strAmount.headD (Char.ofNat 0) = 'x' ∨ strAmount.headD (Char.ofNat 0) = 'X')
  let strAmount := if fHex then substrFrom strAmount 1 else strAmount
  let found :=
    match find strAmount 'X' 1 with
    | some p => some p
    | none => find strAmount 'x' 1
  let nExponent : Int :=
    match found with
    | some p => toInt32 (parseNumber (substrFrom strAmount (p + 1)) fHex)
    | none => if fHex then 4 else 8
  let nPosX : Nat :=
    match found with
    | some p => p
    | none => strAmount.length
  let nPosP : Nat :=
    match find strAmount '.' 0 with
    | none => nPosX
    | some p => p
  let nFractionLen : Nat :=
    match find strAmount '.' 0 with
    | none => 0
    | some p => toSizeT ((nPosX : Int) - p - 1)
  let nExponent := toInt32 (nExponent - nFractionLen)
  let strAmount := substr strAmount 0 nPosP ++
    (if nFractionLen ≠ 0 then substr strAmount (nPosP + 1) nFractionLen else [])
  let strAmount :=
    if nExponent > 0 then strAmount ++ List.replicate (toSizeT nExponent) '0'
    else if nExponent < 0 then substr strAmount 0 (toSizeT (strAmount.length + nExponent))
    else strAmount
  parseNumber strAmount fHex

/-- Every character is a digit of the base selected by `fHex`. -/
def IsNum (fHex : Bool) (M : StdString) : Prop :=
  ∀ c ∈ M, (digitValue fHex c).isSome = true

instance IsNum.decidable (fHex : Bool) (M : StdString) : Decidable (IsNum fHex M) := by
  unfold IsNum
  infer_instance

/-- The number a digit string denotes in the base selected by `fHex`. -/
def strValue (fHex : Bool) (M : StdString) : Nat :=
  M.foldl (fun acc c => acc * baseOf fHex + (digitValue fHex c).getD 0) 0

/-- The last step of `URIParseAmount` on the digit string `T` for the net
exponent `e`: append `e` zeros, or keep the first `size() + e` characters,
the sum taken in `size_t`. -/
def applyExponent (T : StdString) (e : Int) : StdString :=
  if e > 0 then T ++ List.replicate (toSizeT e) '0'
  else if e < 0 then substr T 0 (toSizeT (T.length + e))
  else T

/-- The body of `URIParseAmount` after the hexadecimal marker has been looked
at: `fHex` tells whether it was there, `strAmount` is the text without it. -/
def parseAfterMarker (fHex : Bool) (strAmount : StdString) : Int :=
  let found :=
    match find strAmount 'X' 1 with
    | some p => some p
    | none => find strAmount 'x' 1
  let nExponent : Int :=
    match found with
    | some p => toInt32 (parseNumber (substrFrom strAmount (p + 1)) fHex)
    | none => if fHex then 4 else 8
  let nPosX : Nat :=
    match found with
    | some p => p
    | none => strAmount.length
  let nPosP : Nat :=
    match find strAmount '.' 0 with
    | none => nPosX
    | some p => p
  let nFractionLen : Nat :=
    match find strAmount '.' 0 with
    | none => 0
    | some p => toSizeT ((nPosX : Int) - p - 1)
  let nExponent := toInt32 (nExponent - nFractionLen)
  let strAmount := substr strAmount 0 nPosP ++
    (if nFractionLen ≠ 0 then substr strAmount (nPosP + 1) nFractionLen else [])
  parseNumber (applyExponent strAmount nExponent) fHex

/-- Modelled from the spec: the class `SendCoinsRecipient`, declared in
`walletmodel.h`, absent from the sources; the three members `parseBitcoinURL`
assigns. A default-constructed recipient has empty strings. -/
structure SendCoinsRecipient where
  address : QString
  label : QString
  amount : Int
  deriving DecidableEq, Repr

/-- A `QUrl`, as far as `parseBitcoinURL` looks at it: `scheme()`, `path()` and
the ordered `queryItems()`. -/
structure QUrl where
  scheme : QString
  path : QString
  queryItems : List (QString × QString)
  deriving DecidableEq, Repr

/-- The member `QString::startsWith`. -/
def startsWith (s pre : QString) : Bool :=
  decide (pre <+: s)

/-- The loop of `parseBitcoinURL` over the query items, from the recipient `rv`
built so far; `none` is the `return false` inside the loop. `toStdString` is
`QString::toStdString`. -/
def parseItems (toStdString : QString → StdString) :
    List (QString × QString) → SendCoinsRecipient → Option SendCoinsRecipient
  | [], rv => some rv
  | (first, second) :: items, rv =>
    let fShouldReturnFalse := false
    let req := startsWith first "req-".toList
    let first := if req then first.drop 4 else first
    let fShouldReturnFalse := if req then true else fShouldReturnFalse
    if first = "label".toList then
      parseItems toStdString items { rv with label := second }
    else if first = "amount".toList then
      parseItems toStdString items
        (if ¬ second.isEmpty then { rv with amount := URIParseAmount (toStdString second) }
         else rv)
    else if fShouldReturnFalse then none
    else parseItems toStdString items rv

/-- The function `parseBitcoinURL(const QUrl&, SendCoinsRecipient*)`: the
returned flag, and the recipient behind `out` afterwards (`none` is a null
pointer). -/
def parseBitcoinURL (toStdString : QString → StdString) (url : QUrl)
    (out : Option SendCoinsRecipient) : Bool × Option SendCoinsRecipient :=
  if url.scheme ≠ "bitcoin".toList then (false, out)
  else
    let rv : SendCoinsRecipient := ⟨[], [], 0⟩
    let rv := { rv with address := url.path }
    let rv := { rv with amount := 0 }
    match parseItems toStdString url.queryItems rv with
    | none => (false, out)
    | some rv => (true, out.map (fun _ => rv))

/-- A query key that demands understanding and is not understood: `req-`
followed by something other than `label` and `amount`. -/
def RequiredUnknown (key : QString) : Prop :=
  ∃ k, key = "req-".toList ++ k ∧ k ≠ "label".toList ∧ k ≠ "amount".toList

/-- A label item: its key is `label`, plain or required. -/
def isLabelItem (item : QString × QString) : Bool :=
  decide (item.1 = "label".toList ∨ item.1 = "req-label".toList)

/-- A non-empty amount item: its key is `amount`, plain or required, and its
value is not empty. -/
def isAmountItem (item : QString × QString) : Bool :=
  decide ((item.1 = "amount".toList ∨ item.1 = "req-amount".toList) ∧ item.2 ≠ [])

/-- The value of the last label item, or `dflt` when there is none. -/
def lastLabel (dflt : QString) (items : List (QString × QString)) : QString :=
  match (items.filter isLabelItem).getLast? with
  | some item => item.2
  | none => dflt

/-- The amount parsed from the last non-empty amount item, or `dflt` when there
is none. -/
def lastAmount (toStdString : QString → StdString) (dflt : Int)
    (items : List (QString × QString)) : Int :=
  match (items.filter isAmountItem).getLast? with
  | some item => URIParseAmount (toStdString item.2)
  | none => dflt

end GUIUtil

namespace WalletDB

/-! ## Lemmas on the property map -/

theorem MapMeta.find_assign_self (l : MapMeta) (k v : Bytes) :
    MapMeta.find (MapMeta.assign l k v) k = some v := by
  induction l with
  | nil => simp [MapMeta.assign, MapMeta.find]
  | cons hd tl ih =>
    obtain ⟨k', v'⟩ := hd
    by_cases h1 : k = k'
    · simp [MapMeta.assign, MapMeta.find, h1]
    · cases h2 : strLess k k'
      · simp [MapMeta.assign, MapMeta.find, h1, h2, ih]
      · simp [MapMeta.assign, MapMeta.find, h1, h2]

theorem MapMeta.find_assign_ne (l : MapMeta) (k v k2 : Bytes) (hne : k2 ≠ k) :
    MapMeta.find (MapMeta.assign l k v) k2 = MapMeta.find l k2 := by
  induction l with
  | nil => simp [MapMeta.assign, MapMeta.find, hne]
  | cons hd tl ih =>
    obtain ⟨k', v'⟩ := hd
    by_cases h1 : k = k'
    · subst h1
      simp [MapMeta.assign, MapMeta.find, hne]
    · cases h2 : strLess k k'
      · simp [MapMeta.assign, MapMeta.find, h1, h2, ih]
      · simp [MapMeta.assign, MapMeta.find, h1, h2, hne]

theorem MapMeta.find_update_self (l : MapMeta) (k : Bytes) (f : Bytes → Bytes) :
    MapMeta.find (MapMeta.update l k f) k = (MapMeta.find l k).map f := by
  induction l with
  | nil => simp [MapMeta.update, MapMeta.find]
  | cons hd tl ih =>
    obtain ⟨k', v'⟩ := hd
    by_cases h1 : k = k'
    · simp [MapMeta.update, MapMeta.find, h1]
    · simp [MapMeta.update, MapMeta.find, h1, ih]

theorem MapMeta.find_update_ne (l : MapMeta) (k : Bytes) (f : Bytes → Bytes) (k2 : Bytes)
    (hne : k2 ≠ k) :
    MapMeta.find (MapMeta.update l k f) k2 = MapMeta.find l k2 := by
  induction l with
  | nil => simp [MapMeta.update, MapMeta.find]
  | cons hd tl ih =>
    obtain ⟨k', v'⟩ := hd
    by_cases h1 : k = k'
    · subst h1
      simp [MapMeta.update, MapMeta.find, hne]
    · by_cases h2 : k2 = k'
      · simp [MapMeta.update, MapMeta.find, h1, h2]
      · simp [MapMeta.update, MapMeta.find, h1, h2, ih]

/-- The value stored under "origin" after `SetKeyOrigin`. -/
theorem find_origin_SetKeyOrigin (m : CKeyMetadata) (n : Byte) :
    (SetKeyOrigin m n).mapMeta.find originKey =
      match m.mapMeta.find originKey with
      | none => some [n]
      | some second => some ((if second.length < 1 then resize second 1 else second).set 0 n) := by
  unfold SetKeyOrigin
  cases h : m.mapMeta.find originKey with
  | none => simp [MapMeta.find_assign_self]
  | some second => simp [MapMeta.find_update_self, h]

theorem GetKeyOrigin_SetKeyOrigin (m : CKeyMetadata) (n : Byte) :
    GetKeyOrigin (SetKeyOrigin m n) = n := by
  unfold GetKeyOrigin
  rw [find_origin_SetKeyOrigin]
  cases h : m.mapMeta.find originKey with
  | none => simp
  | some second =>
    cases second with
    | nil => simp [resize]
    | cons c cs => simp

/-! ## Unfolding the codec -/

@[simp] theorem READWRITE_write {α : Type} (p : Prim α) (x : α) (s : Bytes) :
    READWRITE p .Serialize x s = some (x, s ++ p.ser x) := by
  simp [READWRITE, SerAction.ForRead]

@[simp] theorem READWRITE_read {α : Type} (p : Prim α) (x : α) (s : Bytes) :
    READWRITE p .Unserialize x s = p.unser s := by
  simp [READWRITE, SerAction.ForRead]

/-- The bytes the encoder writes, field by field. -/
theorem Encode_eq (S : StreamOps) (m : CKeyMetadata) :
    Encode S m =
      S.int.ser m.nVersion ++ (S.int64.ser m.nCreateTime ++
        (if m.nVersion ≥ VERSION_WITH_HDDATA then
          S.string.ser m.hdKeypath ++ (S.keyID.ser m.hdMasterKeyID ++
            (if m.nVersion ≥ VERSION_WITH_META then S.map.ser m.mapMeta else []))
        else if m.nVersion ≥ VERSION_WITH_FLAGS then S.uint8.ser (GetKeyOrigin m)
        else [])) := by
  unfold Encode SerializationOp
  simp only [READWRITE_write, SerAction.ForRead, Option.bind_eq_bind, Option.some_bind,
    Option.pure_def, Bool.false_eq_true, if_false, List.nil_append, Bool.not_false, if_true]
  split_ifs <;> simp

/-- The decoder, field by field. -/
theorem DecodeInto_eq (S : StreamOps) (self : CKeyMetadata) (s : Bytes) :
    DecodeInto S self s =
      (S.int.unser s).bind fun (v, s1) =>
      (S.int64.unser s1).bind fun (t, s2) =>
        if v ≥ VERSION_WITH_HDDATA then
          (S.string.unser s2).bind fun (kp, s3) =>
          (S.keyID.unser s3).bind fun (id, s4) =>
            if v ≥ VERSION_WITH_META then
              (S.map.unser s4).bind fun (mm, s5) => some (⟨v, t, kp, id, mm⟩, s5)
            else some (⟨v, t, kp, id, []⟩, s4)
        else if v ≥ VERSION_WITH_FLAGS then
          (S.uint8.unser s2).bind fun (b, s3) =>
            some (SetKeyOrigin ⟨v, t, [], CKeyID.null, []⟩ b, s3)
        else some (⟨v, t, [], CKeyID.null, []⟩, s2) := by
  unfold DecodeInto SerializationOp
  simp only [READWRITE_read, SerAction.ForRead, Option.bind_eq_bind,
    Option.pure_def, if_true, SetNull]

@[simp] theorem SetKeyOrigin_nVersion (m : CKeyMetadata) (n : Byte) :
    (SetKeyOrigin m n).nVersion = m.nVersion := by
  unfold SetKeyOrigin; split <;> rfl

@[simp] theorem SetKeyOrigin_nCreateTime (m : CKeyMetadata) (n : Byte) :
    (SetKeyOrigin m n).nCreateTime = m.nCreateTime := by
  unfold SetKeyOrigin; split <;> rfl

@[simp] theorem SetKeyOrigin_hdKeypath (m : CKeyMetadata) (n : Byte) :
    (SetKeyOrigin m n).hdKeypath = m.hdKeypath := by
  unfold SetKeyOrigin; split <;> rfl

@[simp] theorem SetKeyOrigin_hdMasterKeyID (m : CKeyMetadata) (n : Byte) :
    (SetKeyOrigin m n).hdMasterKeyID = m.hdMasterKeyID := by
  unfold SetKeyOrigin; split <;> rfl

/-- Setting the origin of a record whose map is empty gives the one-entry map. -/
theorem SetKeyOrigin_empty (v t : Int) (kp : Bytes) (id : CKeyID) (n : Byte) :
    SetKeyOrigin ⟨v, t, kp, id, []⟩ n = ⟨v, t, kp, id, [(originKey, [n])]⟩ := by
  simp [SetKeyOrigin, MapMeta.find, MapMeta.assign]

/-- Decoding a packed-byte payload: version, creation time, one byte. -/
theorem DecodeInto_packed (S : StreamOps) (self : CKeyMetadata) (v t : Int) (b : Byte)
    (rest : Bytes)
    (hlo : VERSION_WITH_FLAGS ≤ v) (hhi : v < VERSION_WITH_HDDATA)
    (hv : S.int.RoundTrips v) (ht : S.int64.RoundTrips t) (hb : S.uint8.RoundTrips b) :
    DecodeInto S self (S.int.ser v ++ (S.int64.ser t ++ (S.uint8.ser b ++ rest))) =
      some (⟨v, t, [], CKeyID.null, [(originKey, [b])]⟩, rest) := by
  unfold Prim.RoundTrips at hv ht hb
  have h1 : ¬ v ≥ VERSION_WITH_HDDATA := not_le.mpr hhi
  rw [DecodeInto_eq, hv]
  simp [h1, hlo, ht, hb, SetKeyOrigin_empty]

/-- Reading one field from a truncation of `ser a ++ tail`: either the read
fails, or it returns `a` and leaves a truncation of `tail`. -/
theorem Prim.read_truncated {α : Type} (p : Prim α) (a : α) (hc : p.Carries a)
    (tail q : Bytes) (hq : q <+: p.ser a ++ tail) (hne : q ≠ p.ser a ++ tail) :
    p.unser q = none ∨
      ∃ q', p.unser q = some (a, q') ∧ q' <+: tail ∧ q' ≠ tail := by
  obtain ⟨hrt, hft⟩ := hc
  rcases List.prefix_or_prefix_of_prefix hq (List.prefix_append _ _) with h | h
  · by_cases heq : q = p.ser a
    · right
      refine ⟨[], ?_, List.nil_prefix, ?_⟩
      · have := hrt []
        rw [List.append_nil] at this
        rw [heq, this]
      · intro h0
        apply hne
        rw [heq, ← h0, List.append_nil]
    · left
      exact hft q h heq
  · obtain ⟨q', rfl⟩ := h
    right
    refine ⟨q', hrt q', (List.prefix_append_right_inj _).1 hq, ?_⟩
    intro h0
    apply hne
    rw [h0]

/-! ## The concrete stream carries every value in range -/

theorem writeLE_length (w n : Nat) : (writeLE w n).length = w := by
  induction w generalizing n with
  | zero => rfl
  | succ w ih => simp [writeLE, ih]

theorem readLE_writeLE (w n : Nat) (rest : Bytes) :
    readLE w (writeLE w n ++ rest) = some (n % 256 ^ w, rest) := by
  induction w generalizing n with
  | zero => simp [writeLE, readLE, Nat.mod_one]
  | succ w ih =>
    have h : (Fin.ofNat (n % 256) : Byte).val = n % 256 := by
      simp [Fin.ofNat]
    have ih' := ih (n / 256)
    simp only [writeLE, List.cons_append, readLE, List.append_eq, ih', h, pow_succ',
      Nat.mod_mul]

theorem readLE_short (w : Nat) (q : Bytes) (h : q.length < w) : readLE w q = none := by
  induction w generalizing q with
  | zero => omega
  | succ w ih =>
    cases q with
    | nil => rfl
    | cons b q =>
      have h' : q.length < w := by simpa using h
      simp [readLE, ih q h']

theorem length_lt_of_truncation {q l : Bytes} (hq : q <+: l) (hne : q ≠ l) :
    q.length < l.length := by
  rcases Nat.lt_or_ge q.length l.length with h | h
  · exact h
  · exact absurd (hq.eq_of_length (Nat.le_antisymm hq.length_le h)) hne

theorem btc_uint8_carries (b : Byte) : btc.uint8.Carries b := by
  refine ⟨fun rest => rfl, fun q hq hne => ?_⟩
  have hlen := length_lt_of_truncation hq hne
  cases q with
  | nil => rfl
  | cons c cs => simp [btc, uint8Prim] at hlen

theorem btc_int_carries (v : Int) (hlo : -2147483648 ≤ v) (hhi : v ≤ 2147483647) :
    btc.int.Carries v := by
  refine ⟨fun rest => ?_, fun q hq hne => ?_⟩
  · simp only [btc, intPrim, readLE_writeLE, toSigned]
    have h1 : ((256 : Nat) ^ 4) = 4294967296 := by norm_num
    have h2 : ((2 : Int) ^ (8 * 4)) = 4294967296 := by norm_num
    have h3 : ((2 : Nat) ^ (8 * 4 - 1)) = 2147483648 := by norm_num
    rw [h1, h2, h3]
    have h4 : (((v % 4294967296).toNat % 4294967296 : Nat) : Int) =
        if v < 0 then v + 4294967296 else v := by
      split_ifs <;> omega
    by_cases hneg : v < 0
    · have h5 : ¬ (v % 4294967296).toNat % 4294967296 < 2147483648 := by omega
      simp only [h5, if_false, h4, hneg, if_true]
      congr 2
      omega
    · have h5 : (v % 4294967296).toNat % 4294967296 < 2147483648 := by omega
      simp only [h5, if_true, h4, hneg, if_false]
  · have hlen := length_lt_of_truncation hq hne
    simp only [btc, intPrim, writeLE_length] at hlen
    simp [btc, intPrim, readLE_short 4 q hlen]

theorem btc_int64_carries (v : Int) (hlo : -9223372036854775808 ≤ v)
    (hhi : v ≤ 9223372036854775807) : btc.int64.Carries v := by
  refine ⟨fun rest => ?_, fun q hq hne => ?_⟩
  · simp only [btc, intPrim, readLE_writeLE, toSigned]
    have h1 : ((256 : Nat) ^ 8) = 18446744073709551616 := by norm_num
    have h2 : ((2 : Int) ^ (8 * 8)) = 18446744073709551616 := by norm_num
    have h3 : ((2 : Nat) ^ (8 * 8 - 1)) = 9223372036854775808 := by norm_num
    rw [h1, h2, h3]
    have h4 : (((v % 18446744073709551616).toNat % 18446744073709551616 : Nat) : Int) =
        if v < 0 then v + 18446744073709551616 else v := by
      split_ifs <;> omega
    by_cases hneg : v < 0
    · have h5 : ¬ (v % 18446744073709551616).toNat % 18446744073709551616 <
          9223372036854775808 := by omega
      simp only [h5, if_false, h4, hneg, if_true]
      congr 2
      omega
    · have h5 : (v % 18446744073709551616).toNat % 18446744073709551616 <
          9223372036854775808 := by omega
      simp only [h5, if_true, h4, hneg, if_false]
  · have hlen := length_lt_of_truncation hq hne
    simp only [btc, intPrim, writeLE_length] at hlen
    simp [btc, intPrim, readLE_short 8 q hlen]

theorem btc_keyID_carries (id : CKeyID) : btc.keyID.Carries id := by
  refine ⟨fun rest => ?_, fun q hq hne => ?_⟩
  · simp only [btc, keyIDPrim, readLE_writeLE]
    have h1 : ((256 : Nat) ^ 20) = 2 ^ 160 := by norm_num
    have h2 : id.val % 256 ^ 20 = id.val := by
      rw [h1]; exact Nat.mod_eq_of_lt id.isLt
    rw [h2]
    congr 2
    apply Fin.ext
    simp only [Fin.ofNat, Nat.succ_eq_add_one]
    exact Nat.mod_eq_of_lt id.isLt
  · have hlen := length_lt_of_truncation hq hne
    simp only [btc, keyIDPrim, writeLE_length] at hlen
    simp [btc, keyIDPrim, readLE_short 20 q hlen]

theorem ReadCompactSize_WriteCompactSize (n : Nat) (rest : Bytes) (h : n ≤ MAX_SIZE) :
    ReadCompactSize (WriteCompactSize n ++ rest) = some (n, rest) := by
  unfold MAX_SIZE at h
  unfold WriteCompactSize
  by_cases h1 : n < 253
  · have hb : (Fin.ofNat (n % 256) : Byte).val = n := by
      simp only [Fin.ofNat]; omega
    have hm : ¬ n > MAX_SIZE := by unfold MAX_SIZE; omega
    simp [h1, writeLE, ReadCompactSize, hb, hm]
  · by_cases h2 : n ≤ 0xFFFF
    · have hm : ¬ n > MAX_SIZE := by unfold MAX_SIZE; omega
      have hr := readLE_writeLE 2 n rest
      have hmod : n % 256 ^ 2 = n := by norm_num; omega
      rw [hmod] at hr
      have e253 : (253 : Byte).val = 253 := rfl
      simp only [h1, h2, if_true, if_false, List.cons_append, ReadCompactSize, hr]
      simp [h1, hm, e253]
    · have hm : ¬ n > MAX_SIZE := by unfold MAX_SIZE; omega
      have h3 : n ≤ 0xFFFFFFFF := by omega
      have hr := readLE_writeLE 4 n rest
      have hmod : n % 256 ^ 4 = n := by norm_num; omega
      rw [hmod] at hr
      have h4 : ¬ n < 0x10000 := by omega
      have e254 : (254 : Byte).val = 254 := rfl
      simp only [h1, h2, h3, if_true, if_false, List.cons_append, ReadCompactSize, hr]
      simp [h4, hm, e254]

theorem ReadCompactSize_truncated (n : Nat) (q : Bytes) (h : n ≤ MAX_SIZE)
    (hq : q <+: WriteCompactSize n) (hne : q ≠ WriteCompactSize n) :
    ReadCompactSize q = none := by
  unfold MAX_SIZE at h
  have hlen := length_lt_of_truncation hq hne
  cases q with
  | nil => rfl
  | cons c cs =>
    unfold WriteCompactSize at hq hlen
    by_cases h1 : n < 253
    · simp [h1, writeLE] at hlen
    · by_cases h2 : n ≤ 0xFFFF
      · simp only [h1, h2, if_true, if_false, List.length_cons, writeLE_length] at hq hlen
        have hc : c = 253 := (List.cons_prefix_cons.1 hq).1
        have hs : cs.length < 2 := by omega
        subst hc
        have e253 : (253 : Byte).val = 253 := rfl
        simp [ReadCompactSize, readLE_short 2 cs hs, e253]
      · have h3 : n ≤ 0xFFFFFFFF := by omega
        simp only [h1, h2, h3, if_true, if_false, List.length_cons, writeLE_length] at hq hlen
        have hc : c = 254 := (List.cons_prefix_cons.1 hq).1
        have hs : cs.length < 4 := by omega
        subst hc
        have e254 : (254 : Byte).val = 254 := rfl
        simp [ReadCompactSize, readLE_short 4 cs hs, e254]

theorem readN_append (s rest : Bytes) : readN s.length (s ++ rest) = some (s, rest) := by
  induction s with
  | nil => simp [readN]
  | cons b s ih => simp [readN, ih]

theorem readN_short (n : Nat) (q : Bytes) (h : q.length < n) : readN n q = none := by
  induction n generalizing q with
  | zero => omega
  | succ n ih =>
    cases q with
    | nil => rfl
    | cons b q =>
      have h' : q.length < n := by simpa using h
      simp [readN, ih q h']

theorem compactSizePrim_carries (n : Nat) (h : n ≤ MAX_SIZE) : compactSizePrim.Carries n :=
  ⟨fun rest => ReadCompactSize_WriteCompactSize n rest h,
    fun q hq hne => ReadCompactSize_truncated n q h hq hne⟩

theorem btc_string_carries (str : Bytes) (h : str.length ≤ MAX_SIZE) :
    btc.string.Carries str := by
  refine ⟨fun rest => ?_, fun q hq hne => ?_⟩
  · simp only [btc, stringPrim, List.append_assoc,
      ReadCompactSize_WriteCompactSize _ _ h, readN_append]
  · simp only [btc, stringPrim] at hq hne ⊢
    rcases Prim.read_truncated compactSizePrim _ (compactSizePrim_carries _ h) str q hq hne with
      h1 | ⟨q', h1, hq', hne'⟩
    · simp only [compactSizePrim] at h1
      simp [h1]
    · simp only [compactSizePrim] at h1
      simp [h1, readN_short _ _ (length_lt_of_truncation hq' hne')]

theorem strLess_irrefl (a : Bytes) : strLess a a = false := by
  induction a with
  | nil => rfl
  | cons x xs ih => simp [strLess, ih]

theorem strLess_asymm (a b : Bytes) (h : strLess a b = true) : strLess b a = false := by
  induction a generalizing b with
  | nil =>
    cases b with
    | nil => rfl
    | cons y ys => rfl
  | cons x xs ih =>
    cases b with
    | nil => simp [strLess] at h
    | cons y ys =>
      simp only [strLess] at h ⊢
      by_cases hxy : x < y
      · have hyx : ¬ y < x := lt_asymm hxy
        simp [hyx, hxy]
      · by_cases hyx : y < x
        · simp [hxy, hyx] at h
        · simp only [hxy, hyx, if_false] at h ⊢
          exact ih ys h

theorem MapMeta.insert_last (acc : MapMeta) (k v : Bytes)
    (h : ∀ e ∈ acc, strLess e.1 k = true) :
    MapMeta.insert acc k v = acc ++ [(k, v)] := by
  induction acc with
  | nil => rfl
  | cons hd tl ih =>
    obtain ⟨k', v'⟩ := hd
    have hlt : strLess k' k = true := h (k', v') (List.mem_cons_self _ _)
    have hne : k ≠ k' := by
      intro heq
      rw [heq, strLess_irrefl] at hlt
      exact Bool.false_ne_true hlt
    have hnlt : strLess k k' = false := strLess_asymm _ _ hlt
    have ih' := ih (fun e he => h e (List.mem_cons_of_mem _ he))
    simp [MapMeta.insert, hne, hnlt, ih']

theorem readEntries_writeEntries (l acc : MapMeta) (rest : Bytes)
    (hord : MapMeta.Ordered (acc ++ l))
    (hsz : ∀ e ∈ l, e.1.length ≤ MAX_SIZE ∧ e.2.length ≤ MAX_SIZE) :
    readEntries l.length acc (writeEntries l ++ rest) = some (acc ++ l, rest) := by
  induction l generalizing acc with
  | nil => simp [readEntries, writeEntries]
  | cons hd tl ih =>
    obtain ⟨k, v⟩ := hd
    obtain ⟨hk, hv⟩ := hsz (k, v) (List.mem_cons_self _ _)
    have hrk := (btc_string_carries k hk).1
    have hrv := (btc_string_carries v hv).1
    simp only [Prim.RoundTrips, btc] at hrk hrv
    have hlast : ∀ e ∈ acc, strLess e.1 k = true := fun e he =>
      (List.pairwise_append.1 hord).2.2 e he (k, v) (List.mem_cons_self _ _)
    have hord' : MapMeta.Ordered ((acc ++ [(k, v)]) ++ tl) := by
      simpa [MapMeta.Ordered] using hord
    have ih' := ih (acc ++ [(k, v)]) hord' (fun e he => hsz e (List.mem_cons_of_mem _ he))
    simp only [List.length_cons, readEntries, writeEntries, List.append_assoc, hrk, hrv,
      MapMeta.insert_last acc k v hlast, ih', List.singleton_append]

theorem readEntries_truncated (l acc : MapMeta) (q : Bytes)
    (hsz : ∀ e ∈ l, e.1.length ≤ MAX_SIZE ∧ e.2.length ≤ MAX_SIZE)
    (hq : q <+: writeEntries l) (hne : q ≠ writeEntries l) :
    readEntries l.length acc q = none := by
  induction l generalizing acc q with
  | nil =>
    simp only [writeEntries] at hq hne
    exact absurd (List.prefix_nil.1 hq) hne
  | cons hd tl ih =>
    obtain ⟨k, v⟩ := hd
    obtain ⟨hk, hv⟩ := hsz (k, v) (List.mem_cons_self _ _)
    have hck := btc_string_carries k hk
    have hcv := btc_string_carries v hv
    simp only [btc] at hck hcv
    simp only [writeEntries, List.append_assoc] at hq hne
    simp only [List.length_cons, readEntries]
    rcases Prim.read_truncated stringPrim k hck _ q hq hne with h1 | ⟨q1, h1, hq1, hne1⟩
    · simp [h1]
    rcases Prim.read_truncated stringPrim v hcv _ q1 hq1 hne1 with h2 | ⟨q2, h2, hq2, hne2⟩
    · simp [h1, h2]
    simp only [h1, h2]
    exact ih _ q2 (fun e he => hsz e (List.mem_cons_of_mem _ he)) hq2 hne2

theorem btc_map_carries (mm : MapMeta) (hord : mm.Ordered) (hlen : mm.length ≤ MAX_SIZE)
    (hsz : ∀ e ∈ mm, e.1.length ≤ MAX_SIZE ∧ e.2.length ≤ MAX_SIZE) :
    btc.map.Carries mm := by
  refine ⟨fun rest => ?_, fun q hq hne => ?_⟩
  · have h := readEntries_writeEntries mm [] rest (by simpa using hord) hsz
    simp only [btc, mapPrim, List.append_assoc, ReadCompactSize_WriteCompactSize _ _ hlen]
    simpa using h
  · simp only [btc, mapPrim] at hq hne ⊢
    rcases Prim.read_truncated compactSizePrim _ (compactSizePrim_carries _ hlen) _ q hq hne with
      h1 | ⟨q', h1, hq', hne'⟩
    · simp only [compactSizePrim] at h1
      simp [h1]
    · simp only [compactSizePrim] at h1
      simp [h1, readEntries_truncated mm [] q' hsz hq' hne']

/-! ## The claims -/

/-- Claim C1. A metadata at the packed-byte version `VERSION_WITH_FLAGS` whose
origin was set to `o` is encoded and decoded again (into any object `self`):
the decoder consumes the whole payload and the result has `GetKeyOrigin() = o`
and the original creation time. The stream only has to carry the three values
written at that version. -/
theorem packed_version_origin_roundtrip (S : StreamOps) (m self : CKeyMetadata) (o : Byte)
    (hver : m.nVersion = VERSION_WITH_FLAGS)
    (hv : S.int.RoundTrips VERSION_WITH_FLAGS)
    (ht : S.int64.RoundTrips m.nCreateTime)
    (ho : S.uint8.RoundTrips o) :
    ∃ m', DecodeInto S self (Encode S (SetKeyOrigin m o)) = some (m', []) ∧
      GetKeyOrigin m' = o ∧ m'.nCreateTime = m.nCreateTime := by
  refine ⟨⟨VERSION_WITH_FLAGS, m.nCreateTime, [], CKeyID.null, [(originKey, [o])]⟩, ?_, ?_, rfl⟩
  · rw [Encode_eq]
    simp only [SetKeyOrigin_nVersion, SetKeyOrigin_nCreateTime, hver,
      GetKeyOrigin_SetKeyOrigin]
    have hdec := DecodeInto_packed S self VERSION_WITH_FLAGS m.nCreateTime o []
      (le_refl _) (by decide) hv ht ho
    simpa [VERSION_WITH_FLAGS, VERSION_WITH_HDDATA] using hdec
  · simp [GetKeyOrigin, MapMeta.find]

/-- Witness for C1 on the concrete stream: creation time 1234567, origin
`KEY_ORIGIN_UNENC_WALLET`. -/
theorem packed_version_origin_roundtrip_witness :
    ∃ m', DecodeInto btc CKeyMetadata.new
        (Encode btc (SetKeyOrigin ⟨2, 1234567, [], 0, []⟩ KEY_ORIGIN_UNENC_WALLET)) = some (m', []) ∧
      GetKeyOrigin m' = KEY_ORIGIN_UNENC_WALLET ∧ m'.nCreateTime = 1234567 :=
  packed_version_origin_roundtrip btc ⟨2, 1234567, [], 0, []⟩ CKeyMetadata.new
    KEY_ORIGIN_UNENC_WALLET rfl (fun _ => rfl) (fun _ => rfl) (fun _ => rfl)

/-- Claim C2. When the map already holds a value `s` of at least two bytes under
"origin", `SetKeyOrigin(n)` leaves a value of the same length there, whose byte 0
is `n` and whose bytes at every index from 1 on are those of `s`. -/
theorem SetKeyOrigin_keeps_trailing_bytes (m : CKeyMetadata) (s : Bytes) (n : Byte)
    (hfind : m.mapMeta.find originKey = some s) (hlen : 2 ≤ s.length) :
    ∃ s', (SetKeyOrigin m n).mapMeta.find originKey = some s' ∧
      s'.length = s.length ∧ s'[0]? = some n ∧ ∀ i, 1 ≤ i → s'[i]? = s[i]? := by
  refine ⟨s.set 0 n, ?_, by simp, ?_, ?_⟩
  · rw [find_origin_SetKeyOrigin, hfind]
    have : ¬ s.length < 1 := by omega
    simp [this]
  · cases s with
    | nil => simp at hlen
    | cons c cs => simp
  · intro i hi
    cases s with
    | nil => simp
    | cons c cs =>
      cases i with
      | zero => omega
      | succ j => simp

/-- Witness for C2: the stored value `[1, 7, 9]` becomes `[8, 7, 9]`. -/
theorem SetKeyOrigin_keeps_trailing_bytes_witness :
    ∃ s', (SetKeyOrigin ⟨11, 0, [], 0, [(originKey, [1, 7, 9])]⟩ 8).mapMeta.find originKey = some s' ∧
      s'.length = [(1 : Byte), 7, 9].length ∧ s'[0]? = some 8 ∧
      ∀ i, 1 ≤ i → s'[i]? = [(1 : Byte), 7, 9][i]? :=
  SetKeyOrigin_keeps_trailing_bytes ⟨11, 0, [], 0, [(originKey, [1, 7, 9])]⟩ [1, 7, 9] 8
    (by decide) (by decide)

/-- Claim C4. Round trip at the current format: a metadata with
`nVersion = CURRENT_VERSION` is encoded; decoding the bytes (into any object,
with anything after them on the stream) succeeds, returns a metadata equal to
the original and leaves exactly what followed the encoding. The stream only has
to carry the five field values. -/
theorem current_version_roundtrip (S : StreamOps) (m self : CKeyMetadata) (rest : Bytes)
    (hver : m.nVersion = CURRENT_VERSION)
    (hv : S.int.RoundTrips m.nVersion)
    (ht : S.int64.RoundTrips m.nCreateTime)
    (hkp : S.string.RoundTrips m.hdKeypath)
    (hid : S.keyID.RoundTrips m.hdMasterKeyID)
    (hmm : S.map.RoundTrips m.mapMeta) :
    DecodeInto S self (Encode S m ++ rest) = some (m, rest) := by
  unfold Prim.RoundTrips at hv ht hkp hid hmm
  rw [Encode_eq, DecodeInto_eq]
  have h10 : m.nVersion ≥ VERSION_WITH_HDDATA := by rw [hver]; decide
  have h11 : m.nVersion ≥ VERSION_WITH_META := by rw [hver]; decide
  simp only [h10, h11, if_true, List.append_assoc, hv, Option.some_bind, ht, hkp, hid, hmm]

/-- Witness for C4 on the concrete stream: a negative creation time, an HD path,
a master key id, and a map whose "origin" value has two bytes. -/
theorem current_version_roundtrip_witness :
    DecodeInto btc CKeyMetadata.new
        (Encode btc ⟨11, -5, [1, 2, 3], 77, [(originKey, [4, 9]), ([0x70], [])]⟩ ++ [0xAA]) =
      some (⟨11, -5, [1, 2, 3], 77, [(originKey, [4, 9]), ([0x70], [])]⟩, [0xAA]) :=
  current_version_roundtrip btc ⟨11, -5, [1, 2, 3], 77, [(originKey, [4, 9]), ([0x70], [])]⟩
    CKeyMetadata.new [0xAA] rfl (fun _ => rfl) (fun _ => rfl) (fun _ => rfl) (fun _ => rfl)
    (fun _ => rfl)

/-- Claim C5. On a metadata on which no origin was ever set (freshly constructed,
just reset by `SetNull`, or any metadata whose map has no "origin" entry)
`GetKeyOrigin()` returns `KEY_ORIGIN_UNSET`. The accessor is a total function of
the metadata: it cannot fail and has no effect on it. -/
theorem GetKeyOrigin_never_set (m : CKeyMetadata)
    (h : m = CKeyMetadata.new ∨ (∃ m0, m = SetNull m0) ∨ m.mapMeta.find originKey = none) :
    GetKeyOrigin m = KEY_ORIGIN_UNSET := by
  have hfind : m.mapMeta.find originKey = none := by
    rcases h with h | ⟨m0, h⟩ | h
    · subst h; rfl
    · subst h; rfl
    · exact h
  simp [GetKeyOrigin, hfind]

/-- Witness for C5: a metadata just reset by `SetNull`, which held an origin
before. -/
theorem GetKeyOrigin_never_set_witness :
    GetKeyOrigin (SetNull ⟨2, 5, [], 0, [(originKey, [4])]⟩) = KEY_ORIGIN_UNSET :=
  GetKeyOrigin_never_set (SetNull ⟨2, 5, [], 0, [(originKey, [4])]⟩) (Or.inr (Or.inl ⟨_, rfl⟩))

/-- Claim C6. A payload made of a version `v` in the "with flags" range
(`VERSION_WITH_FLAGS ≤ v < VERSION_WITH_HDDATA`), a creation time `t` and a packed
byte `b` decodes (into any object) to the metadata with `nVersion = v`,
`nCreateTime = t`, empty HD key path, null HD master key id and the one-entry map
"origin" ↦ `[b]`. -/
theorem decode_packed_byte_payload (S : StreamOps) (self : CKeyMetadata) (v t : Int) (b : Byte)
    (hlo : VERSION_WITH_FLAGS ≤ v) (hhi : v < VERSION_WITH_HDDATA)
    (hv : S.int.RoundTrips v) (ht : S.int64.RoundTrips t) (hb : S.uint8.RoundTrips b) :
    DecodeInto S self (S.int.ser v ++ S.int64.ser t ++ S.uint8.ser b) =
      some (⟨v, t, [], CKeyID.null, [(originKey, [b])]⟩, []) := by
  have h := DecodeInto_packed S self v t b [] hlo hhi hv ht hb
  simpa using h

/-- Witness for C6: version 9, creation time 2^40, packed byte 0xFF, decoded
into an object that held other data. -/
theorem decode_packed_byte_payload_witness :
    DecodeInto btc ⟨11, 3, [1], 5, [([0x70], [1])]⟩
        (btc.int.ser 9 ++ btc.int64.ser 1099511627776 ++ btc.uint8.ser 0xFF) =
      some (⟨9, 1099511627776, [], CKeyID.null, [(originKey, [0xFF])]⟩, []) :=
  decode_packed_byte_payload btc ⟨11, 3, [1], 5, [([0x70], [1])]⟩ 9 1099511627776 0xFF
    (by decide) (by decide) (fun _ => rfl) (fun _ => rfl) (fun _ => rfl)

/-- Claim C7. Decode, encode, decode again is stable on packed-byte records: for
a payload `p` of a version in the "with flags" range, with any creation time and
any origin byte, `Decode p` yields a metadata `m`, and decoding `Encode m` yields
`m` again, so `Decode (Encode m) = Decode p`. (The re-encoding is `p` itself.) -/
theorem packed_decode_encode_decode (S : StreamOps) (v t : Int) (b : Byte)
    (hlo : VERSION_WITH_FLAGS ≤ v) (hhi : v < VERSION_WITH_HDDATA)
    (hv : S.int.RoundTrips v) (ht : S.int64.RoundTrips t) (hb : S.uint8.RoundTrips b) :
    ∃ m, Decode S (S.int.ser v ++ S.int64.ser t ++ S.uint8.ser b) = some (m, []) ∧
      Decode S (Encode S m) = some (m, []) ∧
      Decode S (Encode S m) = Decode S (S.int.ser v ++ S.int64.ser t ++ S.uint8.ser b) ∧
      GetKeyOrigin m = b ∧ m.nCreateTime = t := by
  have h := DecodeInto_packed S CKeyMetadata.new v t b [] hlo hhi hv ht hb
  simp only [List.append_nil] at h
  have henc : Encode S ⟨v, t, [], CKeyID.null, [(originKey, [b])]⟩ =
      S.int.ser v ++ (S.int64.ser t ++ S.uint8.ser b) := by
    rw [Encode_eq]
    have h1 : ¬ v ≥ VERSION_WITH_HDDATA := not_le.mpr hhi
    simp [h1, hlo, GetKeyOrigin, MapMeta.find]
  refine ⟨⟨v, t, [], CKeyID.null, [(originKey, [b])]⟩, ?_, ?_, ?_, ?_, rfl⟩
  · simpa [Decode] using h
  · rw [henc]; simpa [Decode] using h
  · rw [henc]; simp [Decode]
  · simp [GetKeyOrigin, MapMeta.find]

/-- Witness for C7: version 2, creation time 1500000000, origin
`KEY_ORIGIN_ENC_WALLET`. -/
theorem packed_decode_encode_decode_witness :
    ∃ m, Decode btc (btc.int.ser 2 ++ btc.int64.ser 1500000000 ++ btc.uint8.ser 8) = some (m, []) ∧
      Decode btc (Encode btc m) = some (m, []) ∧
      Decode btc (Encode btc m) =
        Decode btc (btc.int.ser 2 ++ btc.int64.ser 1500000000 ++ btc.uint8.ser 8) ∧
      GetKeyOrigin m = 8 ∧ m.nCreateTime = 1500000000 :=
  packed_decode_encode_decode btc 2 1500000000 8 (by decide) (by decide)
    (fun _ => rfl) (fun _ => rfl) (fun _ => rfl)

/-- Claim C8. Every truncated record is a decode error: for a metadata `m` of
any version and any `q` that is an initial segment of `Encode m` other than
`Encode m` itself, decoding `q` (into any object) fails. The stream has to carry
the fields that `m`'s version writes. -/
theorem truncated_record_is_decode_error (S : StreamOps) (m self : CKeyMetadata) (q : Bytes)
    (hv : S.int.Carries m.nVersion)
    (ht : S.int64.Carries m.nCreateTime)
    (hhd : VERSION_WITH_HDDATA ≤ m.nVersion →
      S.string.Carries m.hdKeypath ∧ S.keyID.Carries m.hdMasterKeyID)
    (hmeta : VERSION_WITH_META ≤ m.nVersion → S.map.Carries m.mapMeta)
    (hfl : VERSION_WITH_FLAGS ≤ m.nVersion → m.nVersion < VERSION_WITH_HDDATA →
      S.uint8.Carries (GetKeyOrigin m))
    (hq : q <+: Encode S m) (hne : q ≠ Encode S m) :
    DecodeInto S self q = none := by
  rw [Encode_eq] at hq hne
  rw [DecodeInto_eq]
  rcases Prim.read_truncated S.int _ hv _ q hq hne with h1 | ⟨q1, h1, hq1, hne1⟩
  · simp [h1]
  rcases Prim.read_truncated S.int64 _ ht _ q1 hq1 hne1 with h2 | ⟨q2, h2, hq2, hne2⟩
  · simp [h1, h2]
  simp only [h1, h2, Option.some_bind]
  by_cases h10 : m.nVersion ≥ VERSION_WITH_HDDATA
  · simp only [h10, if_true] at hq2 hne2 ⊢
    obtain ⟨hkp, hid⟩ := hhd h10
    rcases Prim.read_truncated S.string _ hkp _ q2 hq2 hne2 with h3 | ⟨q3, h3, hq3, hne3⟩
    · simp [h3]
    rcases Prim.read_truncated S.keyID _ hid _ q3 hq3 hne3 with h4 | ⟨q4, h4, hq4, hne4⟩
    · simp [h3, h4]
    simp only [h3, h4, Option.some_bind]
    by_cases h11 : m.nVersion ≥ VERSION_WITH_META
    · simp only [h11, if_true] at hq4 hne4 ⊢
      have hq5 : q4 <+: S.map.ser m.mapMeta ++ [] := by simpa using hq4
      have hne5 : q4 ≠ S.map.ser m.mapMeta ++ [] := by simpa using hne4
      rcases Prim.read_truncated S.map _ (hmeta h11) _ q4 hq5 hne5 with h5 | ⟨q5, _, hq6, hne6⟩
      · simp [h5]
      · exact absurd (List.prefix_nil.1 hq6) hne6
    · simp only [h11, if_false] at hq4 hne4
      exact absurd (List.prefix_nil.1 hq4) hne4
  · simp only [h10, if_false] at hq2 hne2 ⊢
    by_cases h2' : m.nVersion ≥ VERSION_WITH_FLAGS
    · simp only [h2', if_true] at hq2 hne2 ⊢
      have hq3 : q2 <+: S.uint8.ser (GetKeyOrigin m) ++ [] := by simpa using hq2
      have hne3 : q2 ≠ S.uint8.ser (GetKeyOrigin m) ++ [] := by simpa using hne2
      rcases Prim.read_truncated S.uint8 _ (hfl h2' (not_le.mp h10)) _ q2 hq3 hne3 with
        h3 | ⟨q3, _, hq4, hne4⟩
      · simp [h3]
      · exact absurd (List.prefix_nil.1 hq4) hne4
    · simp only [h2', if_false] at hq2 hne2
      exact absurd (List.prefix_nil.1 hq2) hne2

/-- Witness for C8 on the concrete stream: a current-version record cut after
its 40th byte, inside the property map. -/
theorem truncated_record_is_decode_error_witness :
    DecodeInto btc CKeyMetadata.new
      ((Encode btc ⟨11, -5, [1, 2, 3], 77, [(originKey, [4, 9])]⟩).take 40) = none :=
  truncated_record_is_decode_error btc ⟨11, -5, [1, 2, 3], 77, [(originKey, [4, 9])]⟩
    CKeyMetadata.new _ (btc_int_carries 11 (by decide) (by decide))
    (btc_int64_carries (-5) (by decide) (by decide))
    (fun _ => ⟨btc_string_carries [1, 2, 3] (by decide), btc_keyID_carries 77⟩)
    (fun _ => btc_map_carries [(originKey, [4, 9])] (by decide) (by decide) (by decide))
    (fun _ h => absurd h (by decide))
    (by decide) (by decide)

/-- Claim C9. For a payload of any format version `v`, laid out as that version
prescribes, decoding succeeds and the decoded metadata's `GetKeyOrigin()` is the
origin that layout stores: the packed byte `b` when
`VERSION_WITH_FLAGS ≤ v < VERSION_WITH_HDDATA`; byte 0 of the "origin" entry of
the map when `v ≥ VERSION_WITH_META` (`KEY_ORIGIN_UNSET` when the entry is absent
or empty); `KEY_ORIGIN_UNSET` for the versions that store no origin
(`v < VERSION_WITH_FLAGS` and `v = VERSION_WITH_HDDATA`). -/
theorem decoded_origin_follows_version (S : StreamOps) (self : CKeyMetadata) (v t : Int)
    (kp : Bytes) (id : CKeyID) (mm : MapMeta) (b : Byte)
    (hv : S.int.RoundTrips v)
    (ht : S.int64.RoundTrips t)
    (hhd : VERSION_WITH_HDDATA ≤ v → S.string.RoundTrips kp ∧ S.keyID.RoundTrips id)
    (hmeta : VERSION_WITH_META ≤ v → S.map.RoundTrips mm)
    (hfl : VERSION_WITH_FLAGS ≤ v → v < VERSION_WITH_HDDATA → S.uint8.RoundTrips b) :
    ∃ m', DecodeInto S self (wirePayload S v t kp id mm b) = some (m', []) ∧
      m'.nVersion = v ∧
      GetKeyOrigin m' =
        if VERSION_WITH_FLAGS ≤ v ∧ v < VERSION_WITH_HDDATA then b
        else if VERSION_WITH_META ≤ v then
          match mm.find originKey with
          | some (c :: _) => c
          | _ => KEY_ORIGIN_UNSET
        else KEY_ORIGIN_UNSET := by
  unfold Prim.RoundTrips at hv ht hhd hmeta hfl
  unfold wirePayload
  rw [DecodeInto_eq, hv]
  simp only [Option.some_bind, ht]
  by_cases h10 : VERSION_WITH_HDDATA ≤ v
  · obtain ⟨hkp, hid⟩ := hhd h10
    have hnot : ¬ (VERSION_WITH_FLAGS ≤ v ∧ v < VERSION_WITH_HDDATA) :=
      fun h => absurd h10 (not_le.mpr h.2)
    by_cases h11 : VERSION_WITH_META ≤ v
    · have hmm := hmeta h11 []
      rw [List.append_nil] at hmm
      refine ⟨⟨v, t, kp, id, mm⟩, ?_, rfl, ?_⟩
      · simp [h10, h11, hkp, hid, hmm]
      · simp only [hnot, h11, if_true, if_false, GetKeyOrigin]
        cases hfind : mm.find originKey with
        | none => rfl
        | some second =>
          cases second with
          | nil => simp
          | cons c cs => simp
    · have hid0 := hid []
      rw [List.append_nil] at hid0
      refine ⟨⟨v, t, kp, id, []⟩, ?_, rfl, ?_⟩
      · simp [h10, h11, hkp, hid0]
      · simp [hnot, h11, GetKeyOrigin, MapMeta.find]
  · by_cases h2 : VERSION_WITH_FLAGS ≤ v
    · have hb := hfl h2 (not_le.mp h10) []
      rw [List.append_nil] at hb
      refine ⟨⟨v, t, [], CKeyID.null, [(originKey, [b])]⟩, ?_, rfl, ?_⟩
      · simp [h10, h2, hb, SetKeyOrigin_empty]
      · simp [h2, not_le.mp h10, GetKeyOrigin, MapMeta.find]
    · have h11 : ¬ VERSION_WITH_META ≤ v := by
        simp only [VERSION_WITH_META, VERSION_WITH_HDDATA] at h10 ⊢
        omega
      refine ⟨⟨v, t, [], CKeyID.null, []⟩, ?_, rfl, ?_⟩
      · simp [h10, h2]
      · simp [h2, h11, GetKeyOrigin, MapMeta.find]

/-- Witness for C9 on the concrete stream: a version-11 payload whose map holds
the two-byte value `[4, 9]` under "origin" decodes to origin 4. -/
theorem decoded_origin_follows_version_witness :
    ∃ m', DecodeInto btc CKeyMetadata.new
        (wirePayload btc 11 (-5) [1, 2, 3] 77 [(originKey, [4, 9])] 1) = some (m', []) ∧
      m'.nVersion = 11 ∧
      GetKeyOrigin m' =
        if VERSION_WITH_FLAGS ≤ (11 : Int) ∧ (11 : Int) < VERSION_WITH_HDDATA then 1
        else if VERSION_WITH_META ≤ (11 : Int) then
          match MapMeta.find [(originKey, [4, 9])] originKey with
          | some (c :: _) => c
          | _ => KEY_ORIGIN_UNSET
        else KEY_ORIGIN_UNSET :=
  decoded_origin_follows_version btc CKeyMetadata.new 11 (-5) [1, 2, 3] 77
    [(originKey, [4, 9])] 1 (btc_int_carries 11 (by decide) (by decide)).1
    (btc_int64_carries (-5) (by decide) (by decide)).1
    (fun _ => ⟨(btc_string_carries [1, 2, 3] (by decide)).1, (btc_keyID_carries 77).1⟩)
    (fun _ => (btc_map_carries [(originKey, [4, 9])] (by decide) (by decide) (by decide)).1)
    (fun _ h => absurd h (by decide))

/-- Claim C10. `SetKeyOrigin` changes nothing but the "origin" entry of the
property map: `nVersion`, `nCreateTime`, `hdKeypath` and `hdMasterKeyID` are
unchanged, and a lookup of any key `k` other than "origin" gives the same answer
before and after (present with its old value, or absent as before). -/
theorem SetKeyOrigin_frame (m : CKeyMetadata) (n : Byte) (k : Bytes) (hk : k ≠ originKey) :
    (SetKeyOrigin m n).nVersion = m.nVersion ∧
    (SetKeyOrigin m n).nCreateTime = m.nCreateTime ∧
    (SetKeyOrigin m n).hdKeypath = m.hdKeypath ∧
    (SetKeyOrigin m n).hdMasterKeyID = m.hdMasterKeyID ∧
    (SetKeyOrigin m n).mapMeta.find k = m.mapMeta.find k := by
  refine ⟨by simp, by simp, by simp, by simp, ?_⟩
  unfold SetKeyOrigin
  cases m.mapMeta.find originKey with
  | none => exact MapMeta.find_assign_ne _ _ _ _ hk
  | some second => exact MapMeta.find_update_ne _ _ _ _ hk

/-- Witness for C10: a map holding "a" and "p" entries; after `SetKeyOrigin(2)`
the entry of "p" is still there with its value. -/
theorem SetKeyOrigin_frame_witness :
    (SetKeyOrigin ⟨11, 7, [1], 5, [([0x61], [3]), ([0x70], [1, 2])]⟩ 2).nVersion = 11 ∧
    (SetKeyOrigin ⟨11, 7, [1], 5, [([0x61], [3]), ([0x70], [1, 2])]⟩ 2).nCreateTime = 7 ∧
    (SetKeyOrigin ⟨11, 7, [1], 5, [([0x61], [3]), ([0x70], [1, 2])]⟩ 2).hdKeypath = [1] ∧
    (SetKeyOrigin ⟨11, 7, [1], 5, [([0x61], [3]), ([0x70], [1, 2])]⟩ 2).hdMasterKeyID = 5 ∧
    (SetKeyOrigin ⟨11, 7, [1], 5, [([0x61], [3]), ([0x70], [1, 2])]⟩ 2).mapMeta.find [0x70] =
      MapMeta.find [([0x61], [3]), ([0x70], [1, 2])] [0x70] :=
  SetKeyOrigin_frame ⟨11, 7, [1], 5, [([0x61], [3]), ([0x70], [1, 2])]⟩ 2 [0x70] (by decide)

/-! ## The HD chain record -/

/-- The bytes the chain encoder writes, field by field. -/
theorem CHDChain_Encode_eq (S : StreamOps) (uint32 : Prim Nat) (c : CHDChain) :
    CHDChain.Encode S uint32 c =
      S.int.ser c.nVersion ++ (uint32.ser c.nExternalChainCounter ++
        S.keyID.ser c.masterKeyID) := by
  unfold CHDChain.Encode CHDChain.SerializationOp
  simp

/-- Decoding what the chain encoder wrote. -/
theorem CHDChain_DecodeInto_Encode (S : StreamOps) (uint32 : Prim Nat) (c self : CHDChain)
    (rest : Bytes)
    (hv : S.int.RoundTrips c.nVersion)
    (hn : uint32.RoundTrips c.nExternalChainCounter)
    (hid : S.keyID.RoundTrips c.masterKeyID) :
    CHDChain.DecodeInto S uint32 self (CHDChain.Encode S uint32 c ++ rest) = some (c, rest) := by
  unfold Prim.RoundTrips at hv hn hid
  rw [CHDChain_Encode_eq]
  unfold CHDChain.DecodeInto CHDChain.SerializationOp
  simp [hv, hn, hid]

theorem uint32Prim_roundTrips (n : Nat) (h : n < 2 ^ 32) : uint32Prim.RoundTrips n := by
  intro rest
  have h1 : ((256 : Nat) ^ 4) = 2 ^ 32 := by norm_num
  simp only [uint32Prim, readLE_writeLE, h1, Nat.mod_mod, Nat.mod_eq_of_lt h]

/-- Claim C12. The HD chain codec: a default-constructed chain, and any chain
after `SetNull`, has `nVersion = CURRENT_VERSION = 1`, counter 0 and a null
master key id; `Encode c` is the version field, then the counter, then the
master key id; and decoding `Encode c` (into any object, with anything after it
on the stream) returns `c` and leaves what followed. -/
theorem CHDChain_codec (S : StreamOps) (uint32 : Prim Nat) (c self : CHDChain) (rest : Bytes)
    (hv : S.int.RoundTrips c.nVersion)
    (hn : uint32.RoundTrips c.nExternalChainCounter)
    (hid : S.keyID.RoundTrips c.masterKeyID) :
    CHDChain.new = ⟨0, CKeyID.null, 1⟩ ∧
    CHDChain.SetNull self = ⟨0, CKeyID.null, 1⟩ ∧
    CHDChain.CURRENT_VERSION = 1 ∧
    CHDChain.Encode S uint32 c =
      S.int.ser c.nVersion ++ uint32.ser c.nExternalChainCounter ++ S.keyID.ser c.masterKeyID ∧
    CHDChain.DecodeInto S uint32 self (CHDChain.Encode S uint32 c ++ rest) = some (c, rest) := by
  refine ⟨rfl, rfl, rfl, ?_, CHDChain_DecodeInto_Encode S uint32 c self rest hv hn hid⟩
  rw [CHDChain_Encode_eq, List.append_assoc]

/-- Witness for C12 on the concrete stream: counter 7, master key id 77. -/
theorem CHDChain_codec_witness :
    CHDChain.new = ⟨0, CKeyID.null, 1⟩ ∧
    CHDChain.SetNull ⟨4, 9, 2⟩ = ⟨0, CKeyID.null, 1⟩ ∧
    CHDChain.CURRENT_VERSION = 1 ∧
    CHDChain.Encode btc uint32Prim ⟨7, 77, 1⟩ =
      btc.int.ser 1 ++ uint32Prim.ser 7 ++ btc.keyID.ser 77 ∧
    CHDChain.DecodeInto btc uint32Prim ⟨4, 9, 2⟩
        (CHDChain.Encode btc uint32Prim ⟨7, 77, 1⟩ ++ [0xAA]) = some (⟨7, 77, 1⟩, [0xAA]) :=
  CHDChain_codec btc uint32Prim ⟨7, 77, 1⟩ ⟨4, 9, 2⟩ [0xAA]
    (btc_int_carries 1 (by decide) (by decide)).1
    (uint32Prim_roundTrips 7 (by decide))
    (btc_keyID_carries 77).1

/-! ## More on the accessors and the decoder -/

theorem MapMeta.update_assign (l : MapMeta) (k v : Bytes) (f : Bytes → Bytes) :
    MapMeta.update (MapMeta.assign l k v) k f = MapMeta.assign l k (f v) := by
  induction l with
  | nil => simp [MapMeta.assign, MapMeta.update]
  | cons hd tl ih =>
    obtain ⟨k', v'⟩ := hd
    by_cases h1 : k = k'
    · simp [MapMeta.assign, MapMeta.update, h1]
    · cases h2 : strLess k k'
      · simp [MapMeta.assign, MapMeta.update, h1, h2, ih]
      · simp [MapMeta.assign, MapMeta.update, h1, h2]

theorem MapMeta.update_update (l : MapMeta) (k : Bytes) (f : Bytes → Bytes)
    (hf : ∀ x, f (f x) = f x) :
    MapMeta.update (MapMeta.update l k f) k f = MapMeta.update l k f := by
  induction l with
  | nil => simp [MapMeta.update]
  | cons hd tl ih =>
    obtain ⟨k', v'⟩ := hd
    by_cases h1 : k = k'
    · simp [MapMeta.update, h1, hf]
    · simp [MapMeta.update, h1, ih]

/-- The in-place write of `SetKeyOrigin` on an existing value, applied twice, is
the same as applied once. -/
theorem setByte0_idem (n : Byte) (x : Bytes) :
    (fun second : Bytes => (if second.length < 1 then resize second 1 else second).set 0 n)
      ((fun second : Bytes => (if second.length < 1 then resize second 1 else second).set 0 n) x) =
    (fun second : Bytes => (if second.length < 1 then resize second 1 else second).set 0 n) x := by
  cases x with
  | nil => simp [resize]
  | cons c cs => simp

/-- Claim C13. Get after set: from any prior state of the "origin" entry (absent,
empty, or of any length), after `SetKeyOrigin(n)` the accessor `GetKeyOrigin()`
returns `n`, the stored "origin" value has length `max 1 (old length)` (the old
length being 0 when the entry was absent), and a second `SetKeyOrigin(n)` leaves
the metadata unchanged. -/
theorem GetKeyOrigin_after_SetKeyOrigin (m : CKeyMetadata) (n : Byte) :
    GetKeyOrigin (SetKeyOrigin m n) = n ∧
    (∃ s', (SetKeyOrigin m n).mapMeta.find originKey = some s' ∧
      s'.length = max 1 (match m.mapMeta.find originKey with
        | none => 0
        | some s => s.length)) ∧
    SetKeyOrigin (SetKeyOrigin m n) n = SetKeyOrigin m n := by
  refine ⟨GetKeyOrigin_SetKeyOrigin m n, ?_, ?_⟩
  · rw [find_origin_SetKeyOrigin]
    cases h : m.mapMeta.find originKey with
    | none => exact ⟨[n], rfl, rfl⟩
    | some s =>
      refine ⟨_, rfl, ?_⟩
      cases s with
      | nil => simp [resize]
      | cons c cs => simp
  · cases h : m.mapMeta.find originKey with
    | none =>
      have hm : SetKeyOrigin m n = { m with mapMeta := m.mapMeta.assign originKey [n] } := by
        simp [SetKeyOrigin, h]
      have hfind : (MapMeta.assign m.mapMeta originKey [n]).find originKey = some [n] :=
        MapMeta.find_assign_self _ _ _
      rw [hm]
      simp [SetKeyOrigin, hfind, MapMeta.update_assign]
    | some s =>
      have hm : SetKeyOrigin m n =
          { m with
            mapMeta := MapMeta.update m.mapMeta originKey (fun second =>
              (if second.length < 1 then resize second 1 else second).set 0 n) } := by
        simp [SetKeyOrigin, h]
      have hfind : (MapMeta.update m.mapMeta originKey (fun second =>
          (if second.length < 1 then resize second 1 else second).set 0 n)).find originKey =
          some ((if s.length < 1 then resize s 1 else s).set 0 n) := by
        rw [MapMeta.find_update_self, h]
        rfl
      rw [hm]
      simp only [SetKeyOrigin, hfind]
      rw [MapMeta.update_update _ _ _ (setByte0_idem n)]

/-- Claim C14. Decoding does not depend on the prior contents of the target: for
every payload `p` and every two objects `a` and `b`, decoding `p` into `a` and
into `b` gives the same outcome (both fail, or both succeed with equal metadata
and the same rest of stream). In particular, after a successful decode of a
payload below the HD-data version the result has an empty HD key path and a null
master key id, and its map is empty below the flags version and a single
"origin" entry from it on, whatever the target held. -/
theorem decode_ignores_target (S : StreamOps) (p : Bytes) (a b : CKeyMetadata) :
    DecodeInto S a p = DecodeInto S b p ∧
    ∀ m rest, DecodeInto S a p = some (m, rest) → m.nVersion < VERSION_WITH_HDDATA →
      m.hdKeypath = [] ∧ m.hdMasterKeyID = CKeyID.null ∧
      (m.nVersion < VERSION_WITH_FLAGS → m.mapMeta = []) ∧
      (VERSION_WITH_FLAGS ≤ m.nVersion → ∃ o, m.mapMeta = [(originKey, [o])]) := by
  refine ⟨by rw [DecodeInto_eq, DecodeInto_eq], ?_⟩
  intro m rest hdec hlt
  rw [DecodeInto_eq] at hdec
  cases h1 : S.int.unser p with
  | none => simp [h1] at hdec
  | some r1 =>
    obtain ⟨v, s1⟩ := r1
    cases h2 : S.int64.unser s1 with
    | none => simp [h1, h2] at hdec
    | some r2 =>
      obtain ⟨t, s2⟩ := r2
      simp only [h1, h2, Option.some_bind] at hdec
      by_cases h10 : v ≥ VERSION_WITH_HDDATA
      · simp only [h10, if_true] at hdec
        cases h3 : S.string.unser s2 with
        | none => simp [h3] at hdec
        | some r3 =>
          obtain ⟨kp, s3⟩ := r3
          cases h4 : S.keyID.unser s3 with
          | none => simp [h3, h4] at hdec
          | some r4 =>
            obtain ⟨id, s4⟩ := r4
            simp only [h3, h4, Option.some_bind] at hdec
            exfalso
            by_cases h11 : v ≥ VERSION_WITH_META
            · simp only [h11, if_true] at hdec
              cases h5 : S.map.unser s4 with
              | none => simp [h5] at hdec
              | some r5 =>
                simp only [h5, Option.some_bind, Option.some.injEq, Prod.mk.injEq] at hdec
                rw [← hdec.1] at hlt
                exact absurd h10 (not_le.mpr hlt)
            · simp only [h11, if_false, Option.some.injEq, Prod.mk.injEq] at hdec
              rw [← hdec.1] at hlt
              exact absurd h10 (not_le.mpr hlt)
      · simp only [h10, if_false] at hdec
        by_cases h2' : v ≥ VERSION_WITH_FLAGS
        · simp only [h2', if_true] at hdec
          cases h3 : S.uint8.unser s2 with
          | none => simp [h3] at hdec
          | some r3 =>
            obtain ⟨o, s3⟩ := r3
            simp only [h3, Option.some_bind, SetKeyOrigin_empty, Option.some.injEq,
              Prod.mk.injEq] at hdec
            obtain ⟨hm, _⟩ := hdec
            subst hm
            exact ⟨rfl, rfl, fun h => absurd h2' (not_le.mpr h), fun _ => ⟨o, rfl⟩⟩
        · simp only [h2', if_false, Option.some.injEq, Prod.mk.injEq] at hdec
          obtain ⟨hm, _⟩ := hdec
          subst hm
          exact ⟨rfl, rfl, fun _ => rfl, fun h => absurd h h2'⟩

end WalletDB

/-! # Payment URIs: lemmas and claims -/

namespace GUIUtil

theorem digitValue_lt {fHex : Bool} {c : Char} {d : Nat} (h : digitValue fHex c = some d) :
    d < baseOf fHex := by
  unfold digitValue at h
  have hb : 10 ≤ baseOf fHex := by cases fHex <;> simp [baseOf]
  split_ifs at h with h1 h2 h3
  · simp only [Option.some.injEq] at h
    omega
  · have hb16 : baseOf fHex = 16 := by simp [baseOf, h2.1]
    simp only [Option.some.injEq] at h
    omega
  · have hb16 : baseOf fHex = 16 := by simp [baseOf, h3.1]
    simp only [Option.some.injEq] at h
    omega

theorem digit_toNat {fHex : Bool} {c : Char} (h : (digitValue fHex c).isSome = true) :
    (48 ≤ c.toNat ∧ c.toNat ≤ 57) ∨ (97 ≤ c.toNat ∧ c.toNat ≤ 102) ∨
      (65 ≤ c.toNat ∧ c.toNat ≤ 70) := by
  unfold digitValue at h
  split_ifs at h with h1 h2 h3
  · exact Or.inl h1
  · exact Or.inr (Or.inl h2.2)
  · exact Or.inr (Or.inr h3.2)
  · simp at h

theorem digit_ne {fHex : Bool} {c : Char} (h : (digitValue fHex c).isSome = true) (x : Char)
    (hx : x.toNat < 48 ∨ (57 < x.toNat ∧ x.toNat < 65) ∨ (70 < x.toNat ∧ x.toNat < 97) ∨
      102 < x.toNat) : c ≠ x := by
  intro hcx
  subst hcx
  have := digit_toNat h
  omega

theorem digit_ne_X {fHex : Bool} {c : Char} (h : (digitValue fHex c).isSome = true) : c ≠ 'X' :=
  digit_ne h 'X' (by decide)

theorem digit_ne_x {fHex : Bool} {c : Char} (h : (digitValue fHex c).isSome = true) : c ≠ 'x' :=
  digit_ne h 'x' (by decide)

theorem digit_ne_dot {fHex : Bool} {c : Char} (h : (digitValue fHex c).isSome = true) :
    c ≠ '.' :=
  digit_ne h '.' (by decide)

theorem digit_ne_minus {fHex : Bool} {c : Char} (h : (digitValue fHex c).isSome = true) :
    c ≠ '-' :=
  digit_ne h '-' (by decide)

theorem digit_ne_plus {fHex : Bool} {c : Char} (h : (digitValue fHex c).isSome = true) :
    c ≠ '+' :=
  digit_ne h '+' (by decide)

theorem digit_not_space {fHex : Bool} {c : Char} (h : (digitValue fHex c).isSome = true) :
    isspace c = false := by
  have := digit_toNat h
  unfold isspace
  simp only [Bool.or_eq_false_iff, decide_eq_false_iff_not, Bool.and_eq_false_iff]
  omega

theorem IsNum.not_mem {fHex : Bool} {M : StdString} (h : IsNum fHex M) (x : Char)
    (hx : x.toNat < 48 ∨ (57 < x.toNat ∧ x.toNat < 65) ∨ (70 < x.toNat ∧ x.toNat < 97) ∨
      102 < x.toNat) : x ∉ M :=
  fun hmem => digit_ne (h x hmem) x hx rfl

theorem IsNum.append {fHex : Bool} {A B : StdString} (hA : IsNum fHex A) (hB : IsNum fHex B) :
    IsNum fHex (A ++ B) := by
  intro c hc
  rcases List.mem_append.1 hc with h | h
  · exact hA c h
  · exact hB c h

theorem IsNum.tail {fHex : Bool} {c : Char} {M : StdString} (h : IsNum fHex (c :: M)) :
    IsNum fHex M :=
  fun x hx => h x (List.mem_cons_of_mem _ hx)

theorem IsNum.take {fHex : Bool} {M : StdString} (h : IsNum fHex M) (k : Nat) :
    IsNum fHex (M.take k) :=
  fun x hx => h x (List.mem_of_mem_take hx)

theorem IsNum.zeros (fHex : Bool) (n : Nat) : IsNum fHex (List.replicate n '0') := by
  intro c hc
  rw [(List.mem_replicate.1 hc).2]
  cases fHex <;> decide

theorem foldl_digits (fHex : Bool) (acc : Nat) (M : StdString) :
    M.foldl (fun a c => a * baseOf fHex + (digitValue fHex c).getD 0) acc =
      acc * baseOf fHex ^ M.length + strValue fHex M := by
  unfold strValue
  induction M generalizing acc with
  | nil => simp
  | cons c cs ih =>
    simp only [List.foldl_cons, List.length_cons]
    rw [ih (acc * baseOf fHex + (digitValue fHex c).getD 0),
      ih (0 * baseOf fHex + (digitValue fHex c).getD 0)]
    ring

theorem strValue_append (fHex : Bool) (A B : StdString) :
    strValue fHex (A ++ B) = strValue fHex A * baseOf fHex ^ B.length + strValue fHex B := by
  conv_lhs => unfold strValue
  rw [List.foldl_append, foldl_digits]
  rfl

theorem strValue_zeros (fHex : Bool) (n : Nat) : strValue fHex (List.replicate n '0') = 0 := by
  induction n with
  | zero => rfl
  | succ n ih =>
    rw [List.replicate_succ']
    rw [strValue_append, ih]
    cases fHex <;> rfl

theorem strValue_lt (fHex : Bool) (M : StdString) (h : IsNum fHex M) :
    strValue fHex M < baseOf fHex ^ M.length := by
  induction M using List.reverseRecOn with
  | nil => simp [strValue]
  | append_singleton M c ih =>
    have hM : IsNum fHex M := fun x hx => h x (List.mem_append_left _ hx)
    have hc : (digitValue fHex c).isSome = true := h c (by simp)
    obtain ⟨d, hd⟩ := Option.isSome_iff_exists.1 hc
    have hlt := digitValue_lt hd
    have ih' := ih hM
    rw [strValue_append]
    have e1 : strValue fHex [c] = d := by simp [strValue, hd]
    rw [e1]
    simp only [List.length_singleton, pow_one, List.length_append, pow_succ]
    nlinarith

theorem accumulate_digits (fHex : Bool) (acc : Nat) (M : StdString) (h : IsNum fHex M) :
    accumulate fHex acc M = acc * baseOf fHex ^ M.length + strValue fHex M := by
  induction M generalizing acc with
  | nil => simp [accumulate, strValue]
  | cons c cs ih =>
    have hc : (digitValue fHex c).isSome = true := h c (List.mem_cons_self _ _)
    obtain ⟨d, hd⟩ := Option.isSome_iff_exists.1 hc
    have e : strValue fHex (c :: cs) = d * baseOf fHex ^ cs.length + strValue fHex cs := by
      have := strValue_append fHex [c] cs
      simpa [strValue, hd] using this
    simp only [accumulate, hd, ih _ h.tail, e, List.length_cons]
    ring

theorem parseNumber_digits (fHex : Bool) (M : StdString) (h : IsNum fHex M) :
    parseNumber M fHex = clampInt64 (strValue fHex M) := by
  cases M with
  | nil => simp [parseNumber, accumulate, strValue]
  | cons c cs =>
    have hc : (digitValue fHex c).isSome = true := h c (List.mem_cons_self _ _)
    have hsp := digit_not_space hc
    have h1 : c ≠ '-' := digit_ne_minus hc
    have h2 : c ≠ '+' := digit_ne_plus hc
    have h3 : ¬ (cs.head? = some 'x' ∨ cs.head? = some 'X') := by
      cases cs with
      | nil => simp
      | cons c' cs' =>
        have hc' : (digitValue fHex c').isSome = true :=
          h c' (List.mem_cons_of_mem _ (List.mem_cons_self _ _))
        simp [digit_ne_x hc', digit_ne_X hc']
    simp only [parseNumber, List.dropWhile_cons, hsp, List.head?_cons, Option.some.injEq, h1,
      h2, or_self, if_false, decide_False, List.tail_cons, h3, and_false,
      Bool.false_eq_true, accumulate_digits fHex 0 (c :: cs) h]
    simp

theorem strValue_take (M : StdString) (k : Nat) (hM : IsNum false M) :
    strValue false (M.take k) = strValue false M / 10 ^ (M.length - k) := by
  have h := strValue_append false (M.take k) (M.drop k)
  rw [List.take_append_drop] at h
  have hlt := strValue_lt false (M.drop k) (fun x hx => hM x (List.mem_of_mem_drop hx))
  have hb : baseOf false = 10 := rfl
  rw [hb] at h hlt
  rw [List.length_drop] at h hlt
  rw [h, Nat.add_comm, Nat.add_mul_div_right _ _ (Nat.pos_pow_of_pos _ (by norm_num)),
    Nat.div_eq_of_lt hlt, Nat.zero_add]

theorem find_none_of_not_mem (s : StdString) (c : Char) (pos : Nat) (h : c ∉ s) :
    find s c pos = none := by
  unfold find
  have : c ∉ s.drop pos := fun hm => h (List.mem_of_mem_drop hm)
  simp [this]

theorem find_after_first (A B : StdString) (c : Char) (h : c ∉ A) (hne : A ≠ []) :
    find (A ++ c :: B) c 1 = some A.length := by
  cases A with
  | nil => exact absurd rfl hne
  | cons a as =>
    have hn : c ∉ as := fun hm => h (List.mem_cons_of_mem _ hm)
    unfold find
    simp [List.indexOf_append_of_not_mem hn]
    omega

theorem toInt32_of_range (v : Int) (hlo : -2147483648 ≤ v) (hhi : v ≤ 2147483647) :
    toInt32 v = v := by
  unfold toInt32
  have h1 : ((2 : Int) ^ 32) = 4294967296 := by norm_num
  have h2 : ((2 : Int) ^ 31) = 2147483648 := by norm_num
  rw [h1, h2]
  split_ifs <;> omega

theorem toSizeT_of_range (v : Int) (hlo : 0 ≤ v) (hhi : v < 2 ^ 64) : toSizeT v = v.toNat := by
  unfold toSizeT
  rw [Int.emod_eq_of_lt hlo hhi]

theorem toSizeT_natCast (n : Nat) (h : n < 2 ^ 64) : toSizeT (n : Int) = n := by
  rw [toSizeT_of_range _ (Int.natCast_nonneg n) (by exact_mod_cast h)]
  simp

theorem toInt32_idem (v : Int) : toInt32 (toInt32 v - ((0 : Nat) : Int)) = toInt32 v := by
  unfold toInt32
  have h1 : ((2 : Int) ^ 32) = 4294967296 := by norm_num
  have h2 : ((2 : Int) ^ 31) = 2147483648 := by norm_num
  simp only [h1, h2]
  split_ifs <;> omega

theorem URIParseAmount_dec (s : StdString)
    (h : ¬ (s.headD (Char.ofNat 0) = 'x' ∨ s.headD (Char.ofNat 0) = 'X')) :
    URIParseAmount s = parseAfterMarker false s := by
  unfold URIParseAmount parseAfterMarker applyExponent
  simp only [h, decide_False, Bool.false_eq_true, if_false]

theorem URIParseAmount_hex (p : Char) (rest : StdString) (hp : p = 'x' ∨ p = 'X') :
    URIParseAmount (p :: rest) = parseAfterMarker true rest := by
  unfold URIParseAmount parseAfterMarker applyExponent
  simp only [List.headD_cons, hp, decide_True, if_true, substrFrom, List.drop_succ_cons,
    List.drop_zero]

/-- Digits only: no exponent part and no point. -/
theorem parseAfterMarker_plain (fHex : Bool) (M : StdString) (hM : IsNum fHex M) :
    parseAfterMarker fHex M =
      parseNumber (M ++ List.replicate (if fHex then 4 else 8) '0') fHex := by
  have hX := hM.not_mem 'X' (by decide)
  have hx := hM.not_mem 'x' (by decide)
  have hd := hM.not_mem '.' (by decide)
  unfold parseAfterMarker
  simp only [find_none_of_not_mem _ 'X' 1 hX, find_none_of_not_mem _ 'x' 1 hx,
    find_none_of_not_mem _ '.' 0 hd, substr, List.drop_zero, List.take_length, ne_eq,
    not_true_eq_false, if_false, List.append_nil]
  cases fHex
  · have e : toInt32 8 = 8 := by decide
    have e2 : toSizeT 8 = 8 := by decide
    simp [applyExponent, e, e2]
  · have e : toInt32 4 = 4 := by decide
    have e2 : toSizeT 4 = 4 := by decide
    simp [applyExponent, e, e2]

/-- Digits `M`, the separator `X`, then an exponent text `E` without a point. -/
theorem parseAfterMarker_exponent (fHex : Bool) (M E : StdString) (hM : IsNum fHex M)
    (hne : M ≠ []) (hE : '.' ∉ E) :
    parseAfterMarker fHex (M ++ 'X' :: E) =
      parseNumber (applyExponent M (toInt32 (parseNumber E fHex))) fHex := by
  have hX := hM.not_mem 'X' (by decide)
  have hfind : find (M ++ 'X' :: E) 'X' 1 = some M.length := find_after_first M E 'X' hX hne
  have hd : '.' ∉ M ++ 'X' :: E := by
    have h1 := hM.not_mem '.' (by decide)
    simp [h1, hE]
  have hsub : substrFrom (M ++ 'X' :: E) (M.length + 1) = E := by
    simp [substrFrom]
  have hsub1 : substr (M ++ 'X' :: E) 0 M.length = M := by
    simp [substr]
  unfold parseAfterMarker
  simp only [hfind, find_none_of_not_mem _ '.' 0 hd, hsub, hsub1, ne_eq, not_true_eq_false,
    if_false, List.append_nil, toInt32_idem]

/-- A string that starts with a digit, or is empty, or starts with a point, has
no hexadecimal marker. -/
theorem no_marker_of_digits (fHex : Bool) (M rest : StdString) (hM : IsNum fHex M)
    (hrest : M = [] → ¬ (rest.headD (Char.ofNat 0) = 'x' ∨ rest.headD (Char.ofNat 0) = 'X')) :
    ¬ ((M ++ rest).headD (Char.ofNat 0) = 'x' ∨ (M ++ rest).headD (Char.ofNat 0) = 'X') := by
  cases M with
  | nil => simpa using hrest rfl
  | cons c cs =>
    have hc := hM c (List.mem_cons_self _ _)
    simp [digit_ne_x hc, digit_ne_X hc]

theorem clampInt64_natCast (n : Nat) (h : n < 2 ^ 63) : clampInt64 (n : Int) = n := by
  unfold clampInt64
  have h' : (n : Int) < 2 ^ 63 := by exact_mod_cast h
  have h0 : (0 : Int) ≤ n := Int.natCast_nonneg n
  have hp : ((2 : Int) ^ 63) = 9223372036854775808 := by norm_num
  rw [hp] at h' ⊢
  split_ifs <;> omega

theorem baseOf_pos (fHex : Bool) : 2 ≤ baseOf fHex := by
  cases fHex <;> simp [baseOf]

theorem strValue_take_eq_zero (fHex : Bool) (M : StdString) (k : Nat)
    (h0 : strValue fHex M = 0) : strValue fHex (M.take k) = 0 := by
  have h := strValue_append fHex (M.take k) (M.drop k)
  rw [List.take_append_drop, h0] at h
  have hpos : 0 < baseOf fHex ^ (M.drop k).length :=
    Nat.pos_pow_of_pos _ (by have := baseOf_pos fHex; omega)
  have hz : strValue fHex (M.take k) * baseOf fHex ^ (M.drop k).length = 0 := by omega
  rcases Nat.mul_eq_zero.1 hz with h1 | h1
  · exact h1
  · omega

/-- A digit string of value zero stays one under any exponent step. -/
theorem applyExponent_zero (fHex : Bool) (M : StdString) (e : Int) (hM : IsNum fHex M)
    (h0 : strValue fHex M = 0) :
    parseNumber (applyExponent M e) fHex = 0 := by
  have key : IsNum fHex (applyExponent M e) ∧ strValue fHex (applyExponent M e) = 0 := by
    unfold applyExponent
    split_ifs
    · exact ⟨hM.append (IsNum.zeros fHex _), by
        rw [strValue_append, h0, strValue_zeros]; simp⟩
    · exact ⟨by simpa [substr] using hM.take _, by
        simpa [substr] using strValue_take_eq_zero fHex M _ h0⟩
    · exact ⟨hM, h0⟩
  rw [parseNumber_digits fHex _ key.1, key.2]
  rfl

theorem applyExponent_append (fHex : Bool) (M : StdString) (n : Nat) (hM : IsNum fHex M)
    (hn : n < 2 ^ 31) (hfit : strValue fHex M * baseOf fHex ^ n < 2 ^ 63) :
    parseNumber (applyExponent M (n : Int)) fHex =
      ((strValue fHex M * baseOf fHex ^ n : Nat) : Int) := by
  have hn' : n < 2147483648 := by simpa using hn
  by_cases h0 : n = 0
  · subst h0
    have : applyExponent M ((0 : Nat) : Int) = M := by simp [applyExponent]
    rw [this, parseNumber_digits fHex M hM]
    simp only [pow_zero, mul_one] at hfit ⊢
    exact clampInt64_natCast _ hfit
  · have hpos : (0 : Int) < (n : Int) := by omega
    have hsz : toSizeT (n : Int) = n := toSizeT_natCast n (by omega)
    have : applyExponent M (n : Int) = M ++ List.replicate n '0' := by
      simp only [applyExponent, gt_iff_lt, hpos, if_true, hsz]
    rw [this, parseNumber_digits fHex _ (hM.append (IsNum.zeros fHex n)), strValue_append,
      strValue_zeros, List.length_replicate, Nat.add_zero]
    exact clampInt64_natCast _ hfit

theorem exponent_small (fHex : Bool) (v n : Nat) (hv : 0 < v)
    (hfit : v * baseOf fHex ^ n < 2 ^ 63) : n < 63 := by
  by_contra hge
  have hge' : 63 ≤ n := by omega
  have h1 : 2 ^ 63 ≤ baseOf fHex ^ n :=
    calc 2 ^ 63 ≤ 2 ^ n := Nat.pow_le_pow_right (by norm_num) hge'
      _ ≤ baseOf fHex ^ n := Nat.pow_le_pow_left (baseOf_pos fHex) n
  have h2 : baseOf fHex ^ n ≤ v * baseOf fHex ^ n := Nat.le_mul_of_pos_left _ hv
  omega

/-- The value `URIParseAmount` computes from mantissa digits `M` and exponent
digits `E`, once the marker and separator are gone. -/
theorem parse_mantissa_exponent (fHex : Bool) (M E : StdString) (hM : IsNum fHex M)
    (hE : IsNum fHex E)
    (hfit : strValue fHex M * baseOf fHex ^ strValue fHex E < 2 ^ 63) :
    parseNumber (applyExponent M (toInt32 (parseNumber E fHex))) fHex =
      ((strValue fHex M * baseOf fHex ^ strValue fHex E : Nat) : Int) := by
  by_cases h0 : strValue fHex M = 0
  · rw [applyExponent_zero fHex M _ hM h0, h0]
    simp
  · have hsmall := exponent_small fHex _ _ (Nat.pos_of_ne_zero h0) hfit
    have hc : clampInt64 ((strValue fHex E : Nat) : Int) = (strValue fHex E : Nat) :=
      clampInt64_natCast _ (by
        calc strValue fHex E < 63 := hsmall
          _ < 2 ^ 63 := by norm_num)
    have hi : toInt32 ((strValue fHex E : Nat) : Int) = (strValue fHex E : Nat) :=
      toInt32_of_range _ (by omega) (by omega)
    rw [parseNumber_digits fHex E hE, hc, hi]
    exact applyExponent_append fHex M _ hM (by
      calc strValue fHex E < 63 := hsmall
        _ < 2 ^ 31 := by norm_num) hfit

/-- Claim C16. With an explicit exponent or without: for the base 16 when the
text starts with `x` or `X` (the marker `pre`, removed) and the base 10
otherwise, a non-empty mantissa `M` of digits of that base, and either an
exponent part `X` followed by digits `D` of that base, or none.
`URIParseAmount` returns the value of `M` times the base to the exponent, the
exponent being the value of `D`, or by default 4 in base 16 and 8 in base 10,
whenever the result fits in a signed 64-bit integer. -/
theorem URIParseAmount_mantissa_exponent (fHex : Bool) (pre M : StdString)
    (E : Option StdString)
    (hpre : (fHex = false ∧ pre = []) ∨ (fHex = true ∧ (pre = ['x'] ∨ pre = ['X'])))
    (hM : IsNum fHex M) (hne : M ≠ []) (hE : ∀ D, E = some D → IsNum fHex D)
    (hfit : strValue fHex M * baseOf fHex ^
      (match E with
        | some D => strValue fHex D
        | none => if fHex then 4 else 8) < 2 ^ 63) :
    URIParseAmount (pre ++ M ++
      (match E with
        | some D => 'X' :: D
        | none => [])) =
      ((strValue fHex M * baseOf fHex ^
        (match E with
          | some D => strValue fHex D
          | none => if fHex then 4 else 8) : Nat) : Int) := by
  have hmark : ∀ rest, URIParseAmount (pre ++ M ++ rest) = parseAfterMarker fHex (M ++ rest) := by
    intro rest
    rcases hpre with ⟨hf, hp⟩ | ⟨hf, hp | hp⟩
    · subst hf; subst hp
      rw [List.nil_append]
      exact URIParseAmount_dec _ (no_marker_of_digits false M _ hM (fun h => absurd h hne))
    · subst hf; subst hp
      exact URIParseAmount_hex 'x' _ (Or.inl rfl)
    · subst hf; subst hp
      exact URIParseAmount_hex 'X' _ (Or.inr rfl)
  cases E with
  | some D =>
    have hD : IsNum fHex D := hE D rfl
    simp only at hfit ⊢
    rw [hmark, parseAfterMarker_exponent fHex M D hM hne (hD.not_mem '.' (by decide))]
    exact parse_mantissa_exponent fHex M D hM hD hfit
  | none =>
    simp only at hfit ⊢
    rw [hmark, List.append_nil, parseAfterMarker_plain fHex M hM,
      parseNumber_digits fHex _ (hM.append (IsNum.zeros fHex _)), strValue_append,
      strValue_zeros, List.length_replicate, Nat.add_zero]
    exact clampInt64_natCast _ hfit

/-- Witness for C16: `"x1fXa"` is `0x1f * 16^10`. -/
theorem URIParseAmount_mantissa_exponent_witness :
    URIParseAmount "x1fXa".toList = 34084860461056 :=
  URIParseAmount_mantissa_exponent true "x".toList "1f".toList (some "a".toList)
    (Or.inr ⟨rfl, Or.inl rfl⟩) (by decide) (by decide)
    (fun D h => by cases h; decide) (by decide)

theorem parseNumber_minus_digits (D : StdString) (hD : IsNum false D) :
    parseNumber ('-' :: D) false = clampInt64 (-((strValue false D : Nat) : Int)) := by
  have hsp : isspace '-' = false := by decide
  simp only [parseNumber, List.dropWhile_cons, hsp, List.head?_cons, true_or, if_true,
    List.tail_cons, decide_True, Bool.false_eq_true, false_and, if_false,
    accumulate_digits false 0 D hD]
  simp

/-- Claim C17, on the code. For a non-empty mantissa `M` of decimal digits and a
negative exponent `-e` written with decimal digits `D`, `1 ≤ e < 2^31`:
when `e` is at most the number of digits of `M` (a string's size fits `size_t`),
`URIParseAmount` drops the last
`e` digits and returns the floor of `M / 10^e` (0 when `e` is that number); but
when `e` is larger, the `size_t` sum `size() + nExponent` wraps around, nothing
is dropped and the result is the whole mantissa, not the 0 the claim states. -/
theorem URIParseAmount_negative_exponent (M D : StdString) (hM : IsNum false M) (hne : M ≠ [])
    (hlen : M.length < 2 ^ 64)
    (hD : IsNum false D) (he1 : 1 ≤ strValue false D) (he2 : strValue false D < 2 ^ 31)
    (hfit : (if strValue false D ≤ M.length then strValue false M / 10 ^ strValue false D
      else strValue false M) < 2 ^ 63) :
    URIParseAmount (M ++ 'X' :: '-' :: D) =
      ((if strValue false D ≤ M.length then strValue false M / 10 ^ strValue false D
        else strValue false M : Nat) : Int) := by
  have he2' : strValue false D < 2147483648 := by simpa using he2
  have hlen' : M.length < 18446744073709551616 := by simpa using hlen
  have hdot : '.' ∉ '-' :: D := by
    have := hD.not_mem '.' (by decide)
    simp [this]
  have hmark := URIParseAmount_dec (M ++ 'X' :: '-' :: D)
    (no_marker_of_digits false M _ hM (fun h => absurd h hne))
  have hexp : toInt32 (parseNumber ('-' :: D) false) = -((strValue false D : Nat) : Int) := by
    rw [parseNumber_minus_digits D hD]
    have hc : clampInt64 (-((strValue false D : Nat) : Int)) = -((strValue false D : Nat) : Int) := by
      unfold clampInt64
      have hp : ((2 : Int) ^ 63) = 9223372036854775808 := by norm_num
      rw [hp]
      split_ifs <;> omega
    rw [hc]
    exact toInt32_of_range _ (by omega) (by omega)
  rw [hmark, parseAfterMarker_exponent false M ('-' :: D) hM hne hdot, hexp]
  have hneg : -((strValue false D : Nat) : Int) < 0 := by omega
  have hnpos : ¬ (-((strValue false D : Nat) : Int) > 0) := by omega
  have h64 : ((2 : Int) ^ 64) = 18446744073709551616 := by norm_num
  by_cases hle : strValue false D ≤ M.length
  · have hsz : toSizeT ((M.length : Int) + -((strValue false D : Nat) : Int)) =
        M.length - strValue false D := by
      have e : ((M.length : Int) + -((strValue false D : Nat) : Int)) =
          ((M.length - strValue false D : Nat) : Int) := by omega
      unfold toSizeT
      rw [e, h64]
      omega
    have hcut : applyExponent M (-((strValue false D : Nat) : Int)) =
        M.take (M.length - strValue false D) := by
      simp only [applyExponent, hnpos, hneg, if_true, if_false, hsz, substr, List.drop_zero]
    have hk : M.length - (M.length - strValue false D) = strValue false D := by omega
    rw [hcut, parseNumber_digits false _ (hM.take _), strValue_take M _ hM, hk]
    simp only [hle, if_true] at hfit ⊢
    exact clampInt64_natCast _ hfit
  · have hsz : M.length ≤ toSizeT ((M.length : Int) + -((strValue false D : Nat) : Int)) := by
      unfold toSizeT
      rw [h64]
      omega
    have hcut : applyExponent M (-((strValue false D : Nat) : Int)) = M := by
      simp only [applyExponent, hnpos, hneg, if_true, if_false, substr, List.drop_zero]
      exact List.take_of_length_le hsz
    rw [hcut, parseNumber_digits false M hM]
    simp only [hle, if_false] at hfit ⊢
    exact clampInt64_natCast _ hfit

/-- The failing input of C17: `"1X-5"` gives 1, where the claim states 0. -/
theorem URIParseAmount_negative_exponent_witness :
    URIParseAmount "1X-5".toList = 1 :=
  URIParseAmount_negative_exponent "1".toList "5".toList (by decide) (by decide) (by decide)
    (by decide) (by decide) (by decide) (by decide)

theorem getLast?_cons_eq {α : Type} (a : α) (l : List α) :
    (a :: l).getLast? = some (l.getLast?.getD a) := by
  cases l with
  | nil => rfl
  | cons b l => simp [List.getLast?_cons_cons, List.getLast?_eq_getLast, List.getLast_cons]

theorem lastLabel_cons (dflt : QString) (item : QString × QString)
    (items : List (QString × QString)) :
    lastLabel dflt (item :: items) =
      lastLabel (if isLabelItem item then item.2 else dflt) items := by
  unfold lastLabel
  by_cases h : isLabelItem item = true
  · simp only [List.filter_cons, h, if_true, getLast?_cons_eq]
    cases (items.filter isLabelItem).getLast? <;> rfl
  · simp only [List.filter_cons, h, if_false, Bool.false_eq_true]

theorem lastAmount_cons (toStd : QString → StdString) (dflt : Int) (item : QString × QString)
    (items : List (QString × QString)) :
    lastAmount toStd dflt (item :: items) =
      lastAmount toStd (if isAmountItem item then URIParseAmount (toStd item.2) else dflt)
        items := by
  unfold lastAmount
  by_cases h : isAmountItem item = true
  · simp only [List.filter_cons, h, if_true, getLast?_cons_eq]
    cases (items.filter isAmountItem).getLast? <;> rfl
  · simp only [List.filter_cons, h, if_false, Bool.false_eq_true]

/-- What the key of an item looks like, against the four spellings the loop
understands. -/
theorem key_cases (first : QString) :
    ((if startsWith first "req-".toList then first.drop 4 else first) = "label".toList ↔
      (first = "label".toList ∨ first = "req-label".toList)) ∧
    ((if startsWith first "req-".toList then first.drop 4 else first) = "amount".toList ↔
      (first = "amount".toList ∨ first = "req-amount".toList)) ∧
    ((startsWith first "req-".toList = true ∧
        (if startsWith first "req-".toList then first.drop 4 else first) ≠ "label".toList ∧
        (if startsWith first "req-".toList then first.drop 4 else first) ≠ "amount".toList) ↔
      RequiredUnknown first) := by
  have e1 : "req-".toList = ['r', 'e', 'q', '-'] := rfl
  have e2 : "label".toList = ['l', 'a', 'b', 'e', 'l'] := rfl
  have e3 : "amount".toList = ['a', 'm', 'o', 'u', 'n', 't'] := rfl
  have e4 : "req-label".toList = ['r', 'e', 'q', '-', 'l', 'a', 'b', 'e', 'l'] := rfl
  have e5 : "req-amount".toList = ['r', 'e', 'q', '-', 'a', 'm', 'o', 'u', 'n', 't'] := rfl
  rw [e1, e2, e3, e4, e5]
  unfold RequiredUnknown
  rw [e1, e2, e3]
  by_cases hreq : startsWith first ['r', 'e', 'q', '-'] = true
  · have hpre : ['r', 'e', 'q', '-'] <+: first := by simpa [startsWith] using hreq
    obtain ⟨k, rfl⟩ := hpre
    simp only [hreq, if_true]
    refine ⟨?_, ?_, ?_⟩
    · simp
    · simp
    · constructor
      · rintro ⟨_, h1, h2⟩
        exact ⟨k, rfl, by simpa using h1, by simpa using h2⟩
      · rintro ⟨k', hk', h1, h2⟩
        have : k = k' := by simpa using hk'
        subst this
        exact ⟨trivial, by simpa using h1, by simpa using h2⟩
  · have hnpre : ¬ ['r', 'e', 'q', '-'] <+: first := by simpa [startsWith] using hreq
    simp only [hreq, if_false, Bool.false_eq_true, false_and, false_iff]
    refine ⟨?_, ?_, ?_⟩
    · constructor
      · intro h; exact Or.inl h
      · rintro (h | h)
        · exact h
        · exact absurd ⟨['l', 'a', 'b', 'e', 'l'], h.symm⟩ hnpre
    · constructor
      · intro h; exact Or.inl h
      · rintro (h | h)
        · exact h
        · exact absurd ⟨['a', 'm', 'o', 'u', 'n', 't'], h.symm⟩ hnpre
    · rintro ⟨k, hk, _, _⟩
      exact hnpre ⟨k, hk.symm⟩

/-- The loop fails exactly when some key is required and not understood; when it
succeeds, the address is untouched, the label is that of the last label item and
the amount that of the last non-empty amount item. -/
theorem parseItems_spec (toStd : QString → StdString) (items : List (QString × QString))
    (rv : SendCoinsRecipient) :
    (parseItems toStd items rv = none ↔ ∃ item ∈ items, RequiredUnknown item.1) ∧
    (∀ rv', parseItems toStd items rv = some rv' →
      rv' = ⟨rv.address, lastLabel rv.label items, lastAmount toStd rv.amount items⟩) := by
  induction items generalizing rv with
  | nil =>
    refine ⟨by simp [parseItems], ?_⟩
    intro rv' h
    simp only [parseItems, Option.some.injEq] at h
    subst h
    rfl
  | cons item items ih =>
    obtain ⟨first, second⟩ := item
    obtain ⟨hlab, hamt, hunk⟩ := key_cases first
    have hex : (∃ item ∈ (first, second) :: items, RequiredUnknown item.1) ↔
        (RequiredUnknown first ∨ ∃ item ∈ items, RequiredUnknown item.1) := by
      simp only [List.mem_cons, exists_eq_or_imp]
    rw [lastLabel_cons, lastAmount_cons, hex]
    simp only [parseItems]
    by_cases h1 : (if startsWith first "req-".toList then first.drop 4 else first) =
        "label".toList
    · have hL : isLabelItem (first, second) = true := by
        unfold isLabelItem
        exact decide_eq_true (hlab.1 h1)
      have hA : isAmountItem (first, second) = false := by
        unfold isAmountItem
        refine decide_eq_false (fun h => ?_)
        have := hamt.2 h.1
        rw [h1] at this
        exact absurd this (by decide)
      have hU : ¬ RequiredUnknown first := fun h => (hunk.2 h).2.1 h1
      simp only [h1, if_true, hL, hA, Bool.false_eq_true, if_false]
      obtain ⟨ih1, ih2⟩ := ih { rv with label := second }
      exact ⟨by rw [ih1]; simp [hU], ih2⟩
    · have hL : isLabelItem (first, second) = false := by
        unfold isLabelItem
        exact decide_eq_false (fun h => h1 (hlab.2 h))
      by_cases h2 : (if startsWith first "req-".toList then first.drop 4 else first) =
          "amount".toList
      · have hU : ¬ RequiredUnknown first := fun h => (hunk.2 h).2.2 h2
        have hAL : ¬ ("amount".toList = "label".toList) := by decide
        simp only [h2, hAL, if_true, if_false, hL, Bool.false_eq_true]
        by_cases hemp : second.isEmpty = true
        · have hA : isAmountItem (first, second) = false := by
            unfold isAmountItem
            exact decide_eq_false (fun h => h.2 (List.isEmpty_iff.1 hemp))
          simp only [hemp, not_true_eq_false, if_false, hA, Bool.false_eq_true]
          obtain ⟨ih1, ih2⟩ := ih rv
          exact ⟨by rw [ih1]; simp [hU], ih2⟩
        · have hA : isAmountItem (first, second) = true := by
            unfold isAmountItem
            exact decide_eq_true ⟨hamt.1 h2, fun h => hemp (List.isEmpty_iff.2 h)⟩
          simp only [hemp, Bool.false_eq_true, not_false_eq_true, if_true, hA]
          obtain ⟨ih1, ih2⟩ := ih { rv with amount := URIParseAmount (toStd second) }
          exact ⟨by rw [ih1]; simp [hU], ih2⟩
      · have hA : isAmountItem (first, second) = false := by
          unfold isAmountItem
          exact decide_eq_false (fun h => h2 (hamt.2 h.1))
        simp only [h1, h2, if_false, hL, hA, Bool.false_eq_true]
        by_cases hreq : startsWith first "req-".toList = true
        · have hU : RequiredUnknown first := hunk.1 ⟨hreq, h1, h2⟩
          simp only [hreq, if_true]
          exact ⟨by simp [hU], by intro rv' h; exact absurd h (by simp)⟩
        · have hU : ¬ RequiredUnknown first := fun h => hreq (hunk.2 h).1
          simp only [hreq, Bool.false_eq_true, if_false]
          obtain ⟨ih1, ih2⟩ := ih rv
          exact ⟨by rw [ih1]; simp [hU], ih2⟩

/-- Claim C18. `parseBitcoinURL` on a URL given by its scheme, path and
ordered query items: it returns false exactly when the scheme is not `bitcoin`
or some item has a key `req-` followed by something other than `label` and
`amount`; whenever it returns false the recipient behind `out` is unchanged; and
whenever it returns true with a non-null `out`, the recipient gets the path as
address, the value of the last label item as label (empty when there is none)
and `URIParseAmount` of the last non-empty amount item as amount (0 when there
is none). -/
theorem parseBitcoinURL_spec (toStdString : QString → StdString) (url : QUrl)
    (out : Option SendCoinsRecipient) :
    ((parseBitcoinURL toStdString url out).1 = false ↔
      (url.scheme ≠ "bitcoin".toList ∨ ∃ item ∈ url.queryItems, RequiredUnknown item.1)) ∧
    ((parseBitcoinURL toStdString url out).1 = false →
      (parseBitcoinURL toStdString url out).2 = out) ∧
    ((parseBitcoinURL toStdString url out).1 = true → ∀ o, out = some o →
      (parseBitcoinURL toStdString url out).2 =
        some ⟨url.path, lastLabel [] url.queryItems,
          lastAmount toStdString 0 url.queryItems⟩) := by
  unfold parseBitcoinURL
  by_cases hs : url.scheme ≠ "bitcoin".toList
  · rw [if_pos hs]
    exact ⟨⟨fun _ => Or.inl hs, fun _ => rfl⟩, fun _ => rfl, fun h => absurd h (by simp)⟩
  · obtain ⟨hnone, hsome⟩ := parseItems_spec toStdString url.queryItems ⟨url.path, [], 0⟩
    rw [if_neg hs]
    dsimp only
    cases hp : parseItems toStdString url.queryItems ⟨url.path, [], 0⟩ with
    | none =>
      exact ⟨⟨fun _ => Or.inr (hnone.1 hp), fun _ => rfl⟩, fun _ => rfl,
        fun h => absurd h (by simp)⟩
    | some rv =>
      have hrv := hsome rv hp
      refine ⟨⟨fun h => absurd h (by simp), ?_⟩, fun h => absurd h (by simp), ?_⟩
      · rintro (h | h)
        · exact absurd h hs
        · rw [hnone.2 h] at hp
          exact absurd hp (by simp)
      · intro _ o ho
        subst ho
        simp only [Option.map_some']
        rw [hrv]

end GUIUtil
